import Mathlib

/-!
# Concatenative interpreter: shallow embedding of `concat_interpreter.c`

The C program keeps one `Stack` (an `int data[256]` array and a `top` index, `-1` when
empty) and terminates the process with `exit(1)` after writing a diagnostic to `stderr`
whenever an operation cannot be carried out.

Modelling choices
* `int` values are `Int`; the results of `+ - * /` are reduced to the 32-bit two's
  complement range by `wrap32` (signed overflow is undefined in C; the model picks the
  wrap-around value, and the theorems about exact results assume representability).
* C strings are `List Char`; the terminating NUL is the end of the list.
* A function of the C program that may call `exit(1)` returns an `Outcome`: either the
  returned value with the stack after the call, or the fault together with the stack as it
  is at the moment `exit(1)` is reached.
* Text written to `stdout` is returned as a `String`.
* The laws are stated for valid stacks, `Stack.WF`: `-1 ≤ top ≤ 255`. The elements of a
  stack are its `contents`, the cells `data[0 .. top]`; cells above `top` keep whatever was
  written there and are not part of the stack.
* The `while` loop of `execute_line` runs on fuel; `execute_line` gives it more fuel than
  the buffer has characters, and `execute_line_eq` shows that this is always enough.
-/

namespace ConcatInterpreter

/-! ## Data model -/

/-- Capacity of the stack, `#define MAX_STACK 256`. -/
def MAX_STACK : Int := 256

/-- The `Stack` struct: the cells of `data` and the index `top` of the top element
(`-1` when the stack is empty). -/
structure Stack where
  data : Nat → Int
  top : Int

/-- The places where the program writes a diagnostic and calls `exit(1)`. -/
inductive Fault where
  /-- `stack_push`: "Errore: stack overflow". -/
  | overflow
  /-- `stack_pop`: "Errore: stack underflow". -/
  | underflow
  /-- `stack_peek`: "Errore: stack vuoto". -/
  | emptyPeek
  /-- `execute_command`, `/`: "Errore: divisione per zero". -/
  | divZero
  /-- `execute_command`, last branch: "Errore: comando sconosciuto", with the token. -/
  | unknown (token : List Char)
  deriving DecidableEq, Repr

/-- The error kinds of the specification. -/
inductive ErrorKind where
  | StackOverflow
  | StackUnderflow
  | DivisionByZero
  | UnknownCommand
  deriving DecidableEq, Repr

/-- The kind of error each diagnostic reports. -/
def Fault.kind : Fault → ErrorKind
  | .overflow => .StackOverflow
  | .underflow => .StackUnderflow
  | .emptyPeek => .StackUnderflow
  | .divZero => .DivisionByZero
  | .unknown _ => .UnknownCommand

/-- The text written to `stderr` before `exit(1)`. -/
def Fault.message : Fault → String
  | .overflow => "Errore: stack overflow\n"
  | .underflow => "Errore: stack underflow\n"
  | .emptyPeek => "Errore: stack vuoto\n"
  | .divZero => "Errore: divisione per zero\n"
  | .unknown token => "Errore: comando sconosciuto '" ++ String.mk token ++ "'\n"

/-- Result of running a piece of the program on a stack: it returns `val` leaving the
stack `s`, or it reaches `exit(1)` with fault `f` while the stack is `s`. -/
inductive Outcome (α : Type) where
  | ok (val : α) (s : Stack)
  | fail (f : Fault) (s : Stack)

/-- A C function taking `Stack *s`. -/
def StackM (α : Type) : Type := Stack → Outcome α

/-- Sequencing of two statements; nothing after an `exit(1)` is executed. -/
def StackM.bind {α β : Type} (m : StackM α) (k : α → StackM β) : StackM β :=
  fun s =>
    match m s with
    | .ok a s1 => k a s1
    | .fail f s1 => .fail f s1

instance : Monad StackM where
  pure := fun a s => .ok a s
  bind := StackM.bind

/-- Number of elements on the stack, `top + 1`. -/
def Stack.size (s : Stack) : Int := s.top + 1

/-- The elements of the stack from bottom (`data[0]`) to top (`data[top]`). -/
def Stack.contents (s : Stack) : List Int :=
  (List.range (s.top + 1).toNat).map s.data

/-- A valid stack: `-1 ≤ top ≤ MAX_STACK - 1`, i.e. `0 ≤ size ≤ 256`. -/
def Stack.WF (s : Stack) : Prop := -1 ≤ s.top ∧ s.top ≤ MAX_STACK - 1

instance (s : Stack) : Decidable s.WF := by
  unfold Stack.WF; infer_instance

/-! ## 32-bit integers -/

/-- Smallest value of a 32-bit `int`. -/
def INT_MIN : Int := -2147483648

/-- Largest value of a 32-bit `int`. -/
def INT_MAX : Int := 2147483647

/-- The value is representable as a 32-bit signed `int`. -/
def InIntRange (x : Int) : Prop := INT_MIN ≤ x ∧ x ≤ INT_MAX

instance (x : Int) : Decidable (InIntRange x) := by
  unfold InIntRange; infer_instance

/-- Reduction of an integer to the 32-bit two's complement range. -/
def wrap32 (x : Int) : Int := (x + 2147483648) % 4294967296 - 2147483648

/-! ## Stack primitives -/

/-- Function `stack_init`: sets `top` to `-1`; the cells are not touched. -/
def stack_init (s : Stack) : Stack := { s with top := -1 }

/-- Function `stack_is_empty`: `s->top == -1`. -/
def stack_is_empty (s : Stack) : Bool := s.top == -1

/-- Function `stack_is_full`: `s->top >= MAX_STACK - 1`. -/
def stack_is_full (s : Stack) : Bool := decide (s.top ≥ MAX_STACK - 1)

/-- Function `stack_push`: on a full stack the program exits; otherwise `s->data[++(s->top)] = value`. -/
def stack_push (value : Int) : StackM Unit := fun s =>
  if stack_is_full s then .fail .overflow s
  else
    let top1 := s.top + 1
    .ok () { data := fun i => if i = top1.toNat then value else s.data i, top := top1 }

/-- Function `stack_pop`: on an empty stack the program exits; otherwise `return s->data[(s->top)--]`. -/
def stack_pop : StackM Int := fun s =>
  if stack_is_empty s then .fail .underflow s
  else .ok (s.data s.top.toNat) { s with top := s.top - 1 }

/-- Function `stack_peek`: on an empty stack the program exits; otherwise `return s->data[s->top]`. -/
def stack_peek : StackM Int := fun s =>
  if stack_is_empty s then .fail .emptyPeek s
  else .ok (s.data s.top.toNat) s

/-- The format `%d` of `printf`. -/
def fmt_d (v : Int) : String := toString v

/-- Function `print_stack`: "Stack: [ ", then `data[i]` and a blank for `i = 0 .. top`, then "]\n". -/
def print_stack (s : Stack) : String :=
  (List.range (s.top + 1).toNat).foldl (fun acc i => acc ++ fmt_d (s.data i) ++ " ") "Stack: [ "
    ++ "]\n"

/-! ## Literals -/

/-- Function `isdigit` of `<ctype.h>`: the ten decimal digits. -/
def isdigit (c : Char) : Bool := decide ('0' ≤ c ∧ c ≤ '9')

/-- Function `isspace` of `<ctype.h>` in the C locale. -/
def isspace (c : Char) : Bool :=
  c = ' ' || c = '\t' || c = '\n' || c = '\x0b' || c = '\x0c' || c = '\r'

/-- The `while (*str)` loop of `is_number`: `0` at the first non-digit, `1` at the end. -/
def is_number_loop : List Char → Bool
  | [] => true
  | c :: str => if !isdigit c then false else is_number_loop str

/-- Function `is_number`: skips one leading `-` or `+`, rejects the empty rest, then runs the loop. -/
def is_number (str : List Char) : Bool :=
  let str1 :=
    match str with
    | c :: rest => if c = '-' ∨ c = '+' then rest else str
    | [] => str
  if str1 = [] then false
  else is_number_loop str1

/-- Smallest value of a 64-bit `long`. -/
def LONG_MIN : Int := -9223372036854775808

/-- Largest value of a 64-bit `long`. -/
def LONG_MAX : Int := 9223372036854775807

/-- The value of a decimal digit, `c - '0'`. -/
def digit_value (c : Char) : Nat := c.toNat - '0'.toNat

/-- The number read from the longest run of decimal digits at the start of the text. -/
def atoi_digits (p : List Char) : Nat :=
  (p.takeWhile isdigit).foldl (fun acc c => acc * 10 + digit_value c) 0

/-- Function `atoi` of `<stdlib.h>`: skips white space, reads an optional sign and the longest run of
decimal digits, and returns their value. The C standard leaves the result undefined when the
value is not representable; the model follows glibc, where `atoi` is `(int) strtol(..)`:
the value is clamped to the range of `long` and then truncated to 32 bits. -/
def atoi (nptr : List Char) : Int :=
  let p := nptr.dropWhile isspace
  let v : Int :=
    match p with
    | '-' :: rest => -(atoi_digits rest : Int)
    | '+' :: rest => (atoi_digits rest : Int)
    | _ => (atoi_digits p : Int)
  wrap32 (max LONG_MIN (min v LONG_MAX))

/-! ## Command executor -/

/-- Function `execute_command`: a number is pushed; otherwise the token is compared with the twelve
command names in the order of the source. The value returned is the text written to `stdout`. -/
def execute_command (token : List Char) : StackM String :=
  if is_number token then do
    stack_push (atoi token)
    return ""
  else if token = "+".toList then do
    let b ← stack_pop
    let a ← stack_pop
    stack_push (wrap32 (a + b))
    return ""
  else if token = "-".toList then do
    let b ← stack_pop
    let a ← stack_pop
    stack_push (wrap32 (a - b))
    return ""
  else if token = "*".toList then do
    let b ← stack_pop
    let a ← stack_pop
    stack_push (wrap32 (a * b))
    return ""
  else if token = "/".toList then do
    let b ← stack_pop
    let a ← stack_pop
    if b = 0 then
      (fun s => Outcome.fail Fault.divZero s : StackM Unit)
    stack_push (wrap32 (Int.tdiv a b))
    return ""
  else if token = "dup".toList then do
    let val ← stack_peek
    stack_push val
    return ""
  else if token = "drop".toList then do
    let _ ← stack_pop
    return ""
  else if token = "swap".toList then do
    let b ← stack_pop
    let a ← stack_pop
    stack_push b
    stack_push a
    return ""
  else if token = "over".toList then do
    let b ← stack_pop
    let a ← stack_peek
    stack_push b
    stack_push a
    return ""
  else if token = "rot".toList then do
    let c ← stack_pop
    let b ← stack_pop
    let a ← stack_pop
    stack_push b
    stack_push c
    stack_push a
    return ""
  else if token = "print".toList then do
    let v ← stack_pop
    return fmt_d v ++ "\n"
  else if token = ".s".toList then
    fun s => .ok (print_stack s) s
  else if token = "clear".toList then
    fun s => .ok "" (stack_init s)
  else
    fun s => .fail (.unknown token) s

/-! ## Line executor -/

/-- The delimiters given to `strtok`: blank, tab and newline. -/
def is_delim (c : Char) : Bool := c = ' ' || c = '\t' || c = '\n'

/-- One call of `strtok` on the text that is left: skips delimiters; returns `none` (NULL) at
the end of the text, else the token up to the next delimiter and the text after that
delimiter. -/
def strtok (p : List Char) : Option (List Char × List Char) :=
  let p1 := p.dropWhile is_delim
  if p1 = [] then none
  else some (p1.takeWhile (fun c => !is_delim c), (p1.dropWhile (fun c => !is_delim c)).drop 1)

/-- What a run of `execute_line` leaves: the text written to `stdout`, the stack, and the
fault if `exit(1)` was reached. -/
structure LineResult where
  out : String
  stack : Stack
  fault : Option Fault

/-- The loop `while (token != NULL)` of `execute_line`, `rest` being the text `strtok` has
not looked at yet; `none` when `fuel` iterations were not enough. -/
def execute_line_loop : Nat → Stack → String → List Char → Option LineResult
  | 0, _, _, _ => none
  | fuel + 1, s, out, rest =>
    match strtok rest with
    | none => some { out := out, stack := s, fault := none }
    | some (token, rest1) =>
      match execute_command token s with
      | .ok o s1 => execute_line_loop fuel s1 (out ++ o) rest1
      | .fail f s1 => some { out := out, stack := s1, fault := some f }

/-- Function `execute_line`: copies at most 1023 characters of the line into `buffer` and executes
its tokens in turn. -/
def execute_line (s : Stack) (line : List Char) : Option LineResult :=
  let buffer := line.take 1023
  execute_line_loop (buffer.length + 1) s "" buffer

/-! ## Iterated pushes and pops (used to state the LIFO law) -/

/-- Pushes the values of the list, first element first, by successive calls of `stack_push`. -/
def push_all : List Int → StackM Unit
  | [] => pure ()
  | v :: vs => do
    stack_push v
    push_all vs

/-- Calls `stack_pop` `n` times and collects the returned values in the order of the calls. -/
def pop_n : Nat → StackM (List Int)
  | 0 => pure []
  | n + 1 => do
    let v ← stack_pop
    let vs ← pop_n n
    pure (v :: vs)

/-- Executes the tokens of a list in turn by `execute_command`, stopping at the first fault;
the value returned is the text written to `stdout`. -/
def execute_tokens : List (List Char) → StackM String
  | [] => pure ""
  | t :: ts => do
    let o ← execute_command t
    let o1 ← execute_tokens ts
    pure (o ++ o1)

/-! ## Sample stacks -/

/-- The empty stack over cells that all hold `0`. -/
def emptyStack : Stack := ⟨fun _ => 0, -1⟩

/-- A full stack: `top = 255`, every cell holding `0`. -/
def fullStack : Stack := ⟨fun _ => 0, 255⟩

/-- The stack holding `4` (bottom) and `9` (top). -/
def stack49 : Stack := ⟨fun i => if i = 0 then 4 else 9, 1⟩

/-- The stack in an outcome: the one left by the call, or the one at the `exit(1)`. -/
def Outcome.stack {α : Type} : Outcome α → Stack
  | .ok _ s => s
  | .fail _ s => s

/-- Every run of `m` from a valid stack ends, normally or not, with a valid stack. -/
def KeepsWF {α : Type} (m : StackM α) : Prop := ∀ s : Stack, s.WF → (m s).stack.WF

/-- The commands of the table of operations that need elements on the stack, each with the
number `k` of elements it needs. -/
def arity_table : List (List Char × Int) :=
  [("+".toList, 2), ("-".toList, 2), ("*".toList, 2), ("/".toList, 2), ("swap".toList, 2),
   ("over".toList, 2), ("rot".toList, 3), ("dup".toList, 1), ("drop".toList, 1)]

/-- The stack holding the single element `7`. -/
def stack7 : Stack := ⟨fun _ => 7, 0⟩

/-- The stack holding `-7` (bottom) and `2` (top). -/
def stackNeg7_2 : Stack := ⟨fun i => if i = 0 then -7 else 2, 1⟩

/-- The stack holding `4`, `9`, `5`, `0` from bottom to top. -/
def stack4950 : Stack :=
  ⟨fun i => if i = 0 then 4 else if i = 1 then 9 else if i = 2 then 5 else 0, 3⟩

/-! ## The integer-literal grammar of the specification -/

/-- The grammar of integer literals: an optional single `+` or `-`, followed by one or more
decimal digits, and nothing else. -/
def IsIntegerLiteral (token : List Char) : Prop :=
  ∃ sign digits : List Char, token = sign ++ digits ∧
    (sign = [] ∨ sign = ['+'] ∨ sign = ['-']) ∧ digits ≠ [] ∧
    ∀ c ∈ digits, '0' ≤ c ∧ c ≤ '9'

/-- The natural number written by a run of decimal digits, most significant digit first. -/
def decimal_value (digits : List Char) : Nat :=
  Nat.ofDigits 10 (digits.reverse.map digit_value)

/-- The signed decimal integer a literal denotes. -/
def literal_value : List Char → Int
  | '-' :: digits => -(decimal_value digits : Int)
  | '+' :: digits => (decimal_value digits : Int)
  | digits => (decimal_value digits : Int)

/-! ## Command names and token-level execution -/

/-- The twelve command names compared with the token by `execute_command`. -/
def command_names : List (List Char) :=
  ["+".toList, "-".toList, "*".toList, "/".toList, "dup".toList, "drop".toList,
   "swap".toList, "over".toList, "rot".toList, "print".toList, ".s".toList, "clear".toList]

/-- No run of `m` ends with the diagnostic of an unknown command. -/
def NoUnknown {α : Type} (m : StackM α) : Prop :=
  ∀ (s s1 : Stack) (f : Fault), m s = .fail f s1 → f.kind ≠ .UnknownCommand

/-- The stack holding `1`, `2`, `3` from bottom to top. -/
def stack123 : Stack := ⟨fun i => if i = 0 then 1 else if i = 1 then 2 else 3, 2⟩

/-- The tokens returned by the successive calls of `strtok` in the loop of `execute_line`,
up to the call that returns `NULL` (at most `fuel` calls). -/
def strtok_all : Nat → List Char → List (List Char)
  | 0, _ => []
  | fuel + 1, rest =>
    match strtok rest with
    | none => []
    | some (token, rest1) => token :: strtok_all fuel rest1

/-- The tokens `execute_line` finds in a line: those `strtok` returns on `buffer`, the copy
of the first 1023 characters of the line. -/
def line_tokens (line : List Char) : List (List Char) :=
  let buffer := line.take 1023
  strtok_all (buffer.length + 1) buffer

/-- Execution of a list of tokens in turn by `execute_command`, after the text `out` has
been written: it stops at the first fault, with the stack at that fault. -/
def run_tokens : List (List Char) → Stack → String → LineResult
  | [], s, out => { out := out, stack := s, fault := none }
  | token :: rest, s, out =>
    match execute_command token s with
    | .ok o s1 => run_tokens rest s1 (out ++ o)
    | .fail f s1 => { out := out, stack := s1, fault := some f }

/-- The tokens of a line according to the specification: the maximal runs of characters
other than blank, tab and newline, from left to right; they are the non-empty pieces
obtained by cutting the line at every such character. -/
def maximal_runs (line : List Char) : List (List Char) :=
  (line.splitOnP fun c => c = ' ' || c = '\t' || c = '\n').filter fun t => !t.isEmpty

/-- A line of 1023 blanks followed by the literal `7`. -/
def long_line : List Char := List.replicate 1023 ' ' ++ ['7']

/-- The commands that do not make the stack grow: every push they perform comes after at
least as many pops. -/
def no_growth_commands : List (List Char) :=
  ["+".toList, "-".toList, "*".toList, "/".toList, "drop".toList, "swap".toList,
   "rot".toList, "print".toList, ".s".toList, "clear".toList]

/-- Started with `top ≤ n`, the run of `m` does not end with the overflow diagnostic, and
if it returns then `top ≤ n1`. -/
def TopBound {α : Type} (n n1 : Int) (m : StackM α) : Prop :=
  ∀ s : Stack, s.top ≤ n →
    (∀ (f : Fault) (s1 : Stack), m s = .fail f s1 → f.kind ≠ .StackOverflow) ∧
    (∀ (a : α) (s1 : Stack), m s = .ok a s1 → s1.top ≤ n1)

/-! ## Basic facts -/

@[simp] theorem bind_apply {α β : Type} (m : StackM α) (k : α → StackM β) (s : Stack) :
    (m >>= k) s = match m s with
      | .ok a s1 => k a s1
      | .fail f s1 => .fail f s1 := rfl

@[simp] theorem pure_apply {α : Type} (a : α) (s : Stack) :
    (pure a : StackM α) s = .ok a s := rfl

theorem size_eq (s : Stack) : s.size = s.top + 1 := rfl

theorem contents_length (s : Stack) : s.contents.length = (s.top + 1).toNat := by
  simp [Stack.contents]

theorem size_eq_length (s : Stack) (h : -1 ≤ s.top) : s.size = s.contents.length := by
  rw [contents_length, size_eq]; omega

/-- The contents only depend on `top` and on the cells up to `top`. -/
theorem contents_congr (s t : Stack) (htop : t.top = s.top)
    (hdata : ∀ i : Nat, (i : Int) ≤ s.top → t.data i = s.data i) : t.contents = s.contents := by
  unfold Stack.contents
  rw [htop]
  apply List.map_congr_left
  intro i hi
  apply hdata
  have := List.mem_range.mp hi
  omega

theorem contents_succ (d : Nat → Int) (t : Int) (h : -1 ≤ t) :
    Stack.contents ⟨d, t + 1⟩ = Stack.contents ⟨d, t⟩ ++ [d (t + 1).toNat] := by
  unfold Stack.contents
  have e : (t + 1 + 1).toNat = (t + 1).toNat + 1 := by omega
  simp only [e, List.range_succ, List.map_append, List.map_cons, List.map_nil]

theorem push_full (v : Int) (s : Stack) (h : MAX_STACK - 1 ≤ s.top) :
    stack_push v s = .fail .overflow s := by
  simp [stack_push, stack_is_full, h]

theorem push_ok (v : Int) (s : Stack) (h : s.top < MAX_STACK - 1) :
    stack_push v s =
      .ok () ⟨fun i => if i = (s.top + 1).toNat then v else s.data i, s.top + 1⟩ := by
  have h1 : ¬ (s.top ≥ MAX_STACK - 1) := not_le.mpr h
  simp [stack_push, stack_is_full, h1]

theorem push_contents (v : Int) (s : Stack) (h : -1 ≤ s.top) :
    Stack.contents ⟨fun i => if i = (s.top + 1).toNat then v else s.data i, s.top + 1⟩
      = s.contents ++ [v] := by
  rw [contents_succ _ _ h]
  congr 1
  · refine contents_congr s ⟨_, s.top⟩ rfl ?_
    intro i hi
    have : i ≠ (s.top + 1).toNat := by omega
    simp [this]
  · simp

/-- A push on a valid stack that is not full: the value is appended to the contents. -/
theorem push_spec (v : Int) (s : Stack) (hwf : s.WF) (h : s.top < MAX_STACK - 1) :
    ∃ s1, stack_push v s = .ok () s1 ∧ s1.contents = s.contents ++ [v] ∧
      s1.top = s.top + 1 ∧ s1.WF := by
  refine ⟨_, push_ok v s h, push_contents v s hwf.1, rfl, ?_⟩
  unfold Stack.WF at *
  simp only [MAX_STACK] at *
  omega

theorem pop_empty (s : Stack) (h : s.top = -1) : stack_pop s = .fail .underflow s := by
  simp [stack_pop, stack_is_empty, h]

theorem pop_ok (s : Stack) (h : s.top ≠ -1) :
    stack_pop s = .ok (s.data s.top.toNat) ⟨s.data, s.top - 1⟩ := by
  simp [stack_pop, stack_is_empty, h]

theorem peek_empty (s : Stack) (h : s.top = -1) : stack_peek s = .fail .emptyPeek s := by
  simp [stack_peek, stack_is_empty, h]

theorem peek_ok (s : Stack) (h : s.top ≠ -1) : stack_peek s = .ok (s.data s.top.toNat) s := by
  simp [stack_peek, stack_is_empty, h]

theorem contents_pred (s : Stack) (h : 0 ≤ s.top) :
    s.contents = Stack.contents ⟨s.data, s.top - 1⟩ ++ [s.data s.top.toNat] := by
  have := contents_succ s.data (s.top - 1) (by omega)
  simpa using this

/-- A stack whose contents end with `x`: `top` is not `-1` and the top cell holds `x`. -/
theorem top_of_contents (s : Stack) (l : List Int) (x : Int) (h : s.contents = l ++ [x]) :
    0 ≤ s.top ∧ s.data s.top.toNat = x ∧ Stack.contents ⟨s.data, s.top - 1⟩ = l := by
  have hlen := contents_length s
  rw [h] at hlen
  simp at hlen
  have h0 : 0 ≤ s.top := by omega
  rw [contents_pred s h0] at h
  have := List.append_inj' h rfl
  simp at this
  exact ⟨h0, this.2, this.1⟩

/-- A pop on a valid stack whose contents are `l ++ [x]` returns `x` and leaves `l`. -/
theorem pop_spec (s : Stack) (hwf : s.WF) (l : List Int) (x : Int) (h : s.contents = l ++ [x]) :
    ∃ s1, stack_pop s = .ok x s1 ∧ s1.contents = l ∧ s1.top = s.top - 1 ∧ s1.WF ∧
      s1.data = s.data := by
  obtain ⟨h0, hx, hl⟩ := top_of_contents s l x h
  refine ⟨⟨s.data, s.top - 1⟩, ?_, hl, rfl, ?_, rfl⟩
  · rw [pop_ok s (by omega), hx]
  · unfold Stack.WF at *
    simp only [MAX_STACK] at *
    omega

/-- A peek on a stack whose contents are `l ++ [x]` returns `x` and leaves the stack. -/
theorem peek_spec (s : Stack) (l : List Int) (x : Int) (h : s.contents = l ++ [x]) :
    stack_peek s = .ok x s := by
  obtain ⟨h0, hx, _⟩ := top_of_contents s l x h
  rw [peek_ok s (by omega), hx]

theorem contents_of_top_neg (s : Stack) (h : s.top = -1) : s.contents = [] := by
  simp [Stack.contents, h]

/-! ## Stack laws -/

theorem push_all_spec (vs : List Int) : ∀ s : Stack, s.WF → s.size + vs.length ≤ MAX_STACK →
    ∃ s1, push_all vs s = .ok () s1 ∧ s1.contents = s.contents ++ vs ∧
      s1.top = s.top + vs.length ∧ s1.WF := by
  induction vs with
  | nil => intro s hwf _; exact ⟨s, rfl, by simp, by simp, hwf⟩
  | cons v vs ih =>
    intro s hwf hcap
    simp only [size_eq, MAX_STACK, List.length_cons, Nat.cast_add, Nat.cast_one] at hcap
    obtain ⟨s1, h1, hc1, ht1, hwf1⟩ := push_spec v s hwf (by simp only [MAX_STACK]; omega)
    obtain ⟨s2, h2, hc2, ht2, hwf2⟩ := ih s1 hwf1 (by simp only [size_eq, MAX_STACK]; omega)
    refine ⟨s2, ?_, ?_, ?_, hwf2⟩
    · simp [push_all, h1, h2]
    · simp [hc2, hc1]
    · simp only [ht2, ht1, List.length_cons, Nat.cast_add, Nat.cast_one]; omega

theorem pop_n_spec (ws : List Int) : ∀ (l : List Int) (s : Stack), s.WF →
    s.contents = l ++ ws.reverse →
    ∃ s1, pop_n ws.length s = .ok ws s1 ∧ s1.contents = l ∧ s1.top = s.top - ws.length ∧
      s1.WF := by
  induction ws with
  | nil => intro l s hwf h; exact ⟨s, rfl, by simpa using h, by simp, hwf⟩
  | cons w ws ih =>
    intro l s hwf h
    rw [List.reverse_cons, ← List.append_assoc] at h
    obtain ⟨s1, h1, hc1, ht1, hwf1, _⟩ := pop_spec s hwf _ w h
    obtain ⟨s2, h2, hc2, ht2, hwf2⟩ := ih l s1 hwf1 hc1
    refine ⟨s2, ?_, hc2, ?_, hwf2⟩
    · simp [pop_n, h1, h2]
    · simp only [ht2, ht1, List.length_cons, Nat.cast_add, Nat.cast_one]; omega

/-- C1 (LIFO and round-trip law of `stack_push` and `stack_pop`): on a valid stack `s`,
if `size(s) + n ≤ 256` then pushing `v1 .. vn` in order succeeds, and popping `n` times
afterwards succeeds, returns `vn, .., v1` and leaves a stack with the size and the elements
of `s`; for `n = 1`, a push followed by a pop returns the pushed value and leaves the size
(and the elements) unchanged. -/
theorem C1_lifo_round_trip (s : Stack) (vs : List Int) (hwf : s.WF)
    (hcap : s.size + vs.length ≤ MAX_STACK) :
    (∃ s1 s2, push_all vs s = .ok () s1 ∧ pop_n vs.length s1 = .ok vs.reverse s2 ∧
      s2.size = s.size ∧ s2.contents = s.contents) ∧
    (∀ v : Int, s.size + 1 ≤ MAX_STACK →
      ∃ s1 s2, stack_push v s = .ok () s1 ∧ stack_pop s1 = .ok v s2 ∧
        s2.size = s.size ∧ s2.contents = s.contents) := by
  constructor
  · obtain ⟨s1, h1, hc1, ht1, hwf1⟩ := push_all_spec vs s hwf hcap
    obtain ⟨s2, h2, hc2, ht2, _⟩ :=
      pop_n_spec vs.reverse s.contents s1 hwf1 (by simpa using hc1)
    refine ⟨s1, s2, h1, by simpa using h2, ?_, hc2⟩
    simp only [size_eq, ht2, ht1, List.length_reverse]; omega
  · intro v hv
    simp only [size_eq, MAX_STACK] at hv
    obtain ⟨s1, h1, hc1, ht1, hwf1⟩ := push_spec v s hwf (by simp only [MAX_STACK]; omega)
    obtain ⟨s2, h2, hc2, ht2, _, _⟩ := pop_spec s1 hwf1 _ v hc1
    refine ⟨s1, s2, h1, h2, ?_, hc2⟩
    simp only [size_eq, ht2, ht1]; omega

/-- Witness of C1: the values `1, 2, 3` pushed on the empty stack. -/
theorem C1_lifo_round_trip_witness :
    emptyStack.WF ∧ emptyStack.size + ([1, 2, 3] : List Int).length ≤ MAX_STACK ∧
    ((∃ s1 s2, push_all [1, 2, 3] emptyStack = .ok () s1 ∧
        pop_n ([1, 2, 3] : List Int).length s1 = .ok ([1, 2, 3] : List Int).reverse s2 ∧
        s2.size = emptyStack.size ∧ s2.contents = emptyStack.contents) ∧
     (∀ v : Int, emptyStack.size + 1 ≤ MAX_STACK →
        ∃ s1 s2, stack_push v emptyStack = .ok () s1 ∧ stack_pop s1 = .ok v s2 ∧
          s2.size = emptyStack.size ∧ s2.contents = emptyStack.contents)) :=
  ⟨by decide, by decide, C1_lifo_round_trip emptyStack [1, 2, 3] (by decide) (by decide)⟩

/-- C2 (`stack_push`): on a valid stack, the push fails, with StackOverflow, if and only if
the stack holds `MAX_STACK = 256` elements, and then the stack at the failure is the stack
before the call; otherwise it succeeds, the size grows by one, the value is the new top,
and the previous elements keep their cells. -/
theorem C2_push_contract (s : Stack) (v : Int) (hwf : s.WF) :
    ((∃ f s1, stack_push v s = .fail f s1) ↔ s.size = MAX_STACK) ∧
    (∀ f s1, stack_push v s = .fail f s1 → f.kind = .StackOverflow ∧ s1 = s) ∧
    (s.size ≠ MAX_STACK →
      ∃ s1, stack_push v s = .ok () s1 ∧ s1.size = s.size + 1 ∧
        s1.data s1.top.toNat = v ∧ s1.contents = s.contents ++ [v] ∧
        ∀ i : Nat, (i : Int) ≤ s.top → s1.data i = s.data i) := by
  obtain ⟨hlo, hhi⟩ := hwf
  simp only [size_eq, MAX_STACK] at *
  by_cases hfull : s.top = 255
  · have hp := push_full v s (by simp only [MAX_STACK]; omega)
    refine ⟨⟨fun _ => by omega, fun _ => ⟨_, _, hp⟩⟩, ?_, fun h => absurd (by omega) h⟩
    intro f s1 h
    rw [hp] at h
    cases h
    exact ⟨rfl, rfl⟩
  · have hp := push_ok v s (by simp only [MAX_STACK]; omega)
    refine ⟨⟨?_, fun h => absurd (by omega) hfull⟩, ?_, fun _ => ⟨_, hp, rfl, ?_, ?_, ?_⟩⟩
    · rintro ⟨f, s1, h⟩
      rw [hp] at h
      cases h
    · intro f s1 h
      rw [hp] at h
      cases h
    · simp
    · exact push_contents v s hlo
    · intro i hi
      have : i ≠ (s.top + 1).toNat := by omega
      simp [this]

/-- Witness of C2: a push on the empty stack and a push on a full stack. -/
theorem C2_push_contract_witness :
    emptyStack.WF ∧ fullStack.WF ∧
    (∃ s1, stack_push 7 emptyStack = .ok () s1 ∧ s1.size = emptyStack.size + 1 ∧
        s1.data s1.top.toNat = 7 ∧ s1.contents = emptyStack.contents ++ [7] ∧
        ∀ i : Nat, (i : Int) ≤ emptyStack.top → s1.data i = emptyStack.data i) ∧
    (∃ f s1, stack_push 7 fullStack = .fail f s1) :=
  ⟨by decide, by decide, (C2_push_contract emptyStack 7 (by decide)).2.2 (by decide),
    (C2_push_contract fullStack 7 (by decide)).1.2 (by decide)⟩

/-- C3 (`stack_pop` and `stack_peek`): on a valid stack, each of the two fails, with
StackUnderflow, exactly when the stack is empty, and then the stack at the failure is the
stack before the call; on a non-empty stack both return the top element, `stack_pop`
leaving one element less with the remaining ones in place, `stack_peek` leaving the stack
as it was. -/
theorem C3_pop_peek_contract (s : Stack) (hwf : s.WF) :
    ((∃ f s1, stack_pop s = .fail f s1) ↔ s.size = 0) ∧
    ((∃ f s1, stack_peek s = .fail f s1) ↔ s.size = 0) ∧
    (∀ f s1, stack_pop s = .fail f s1 → f.kind = .StackUnderflow ∧ s1 = s) ∧
    (∀ f s1, stack_peek s = .fail f s1 → f.kind = .StackUnderflow ∧ s1 = s) ∧
    (s.size ≠ 0 →
      ∃ s1, stack_pop s = .ok (s.data s.top.toNat) s1 ∧ s1.size = s.size - 1 ∧
        s1.data = s.data ∧ s.contents = s1.contents ++ [s.data s.top.toNat] ∧
        stack_peek s = .ok (s.data s.top.toNat) s) := by
  obtain ⟨hlo, hhi⟩ := hwf
  simp only [size_eq] at *
  by_cases hempty : s.top = -1
  · have hp := pop_empty s hempty
    have hk := peek_empty s hempty
    refine ⟨⟨fun _ => by omega, fun _ => ⟨_, _, hp⟩⟩, ⟨fun _ => by omega, fun _ => ⟨_, _, hk⟩⟩,
      ?_, ?_, fun h => absurd (by omega) h⟩
    · intro f s1 h
      rw [hp] at h
      cases h
      exact ⟨rfl, rfl⟩
    · intro f s1 h
      rw [hk] at h
      cases h
      exact ⟨rfl, rfl⟩
  · have hp := pop_ok s hempty
    have hk := peek_ok s hempty
    refine ⟨⟨?_, fun h => absurd (by omega) hempty⟩, ⟨?_, fun h => absurd (by omega) hempty⟩,
      ?_, ?_, fun _ => ⟨_, hp, by simp only [size_eq]; omega, rfl, ?_, hk⟩⟩
    · rintro ⟨f, s1, h⟩
      rw [hp] at h
      cases h
    · rintro ⟨f, s1, h⟩
      rw [hk] at h
      cases h
    · intro f s1 h
      rw [hp] at h
      cases h
    · intro f s1 h
      rw [hk] at h
      cases h
    · exact contents_pred s (by omega)

/-- Witness of C3: pop and peek on the stack `4 9`, and on the empty stack. -/
theorem C3_pop_peek_contract_witness :
    stack49.WF ∧ emptyStack.WF ∧
    (∃ s1, stack_pop stack49 = .ok (stack49.data stack49.top.toNat) s1 ∧
        s1.size = stack49.size - 1 ∧ s1.data = stack49.data ∧
        stack49.contents = s1.contents ++ [stack49.data stack49.top.toNat] ∧
        stack_peek stack49 = .ok (stack49.data stack49.top.toNat) stack49) ∧
    (∃ f s1, stack_pop emptyStack = .fail f s1) :=
  ⟨by decide, by decide, (C3_pop_peek_contract stack49 (by decide)).2.2.2.2 (by decide),
    (C3_pop_peek_contract emptyStack (by decide)).1.2 (by decide)⟩

/-! ## The capacity invariant -/

theorem keepsWF_pure {α : Type} (a : α) : KeepsWF (pure a : StackM α) := fun _ h => h

theorem keepsWF_bind {α β : Type} (m : StackM α) (k : α → StackM β) (hm : KeepsWF m)
    (hk : ∀ a, KeepsWF (k a)) : KeepsWF (m >>= k) := by
  intro s hwf
  have h1 := hm s hwf
  rw [bind_apply]
  cases hms : m s with
  | ok a s1 => rw [hms] at h1; exact hk a s1 h1
  | fail f s1 => rw [hms] at h1; exact h1

theorem keepsWF_push (v : Int) : KeepsWF (stack_push v) := by
  intro s hwf
  by_cases h : s.top < MAX_STACK - 1
  · obtain ⟨s1, h1, _, _, hwf1⟩ := push_spec v s hwf h
    rw [h1]; exact hwf1
  · rw [push_full v s (not_lt.mp h)]; exact hwf

theorem keepsWF_pop : KeepsWF stack_pop := by
  intro s hwf
  by_cases h : s.top = -1
  · rw [pop_empty s h]; exact hwf
  · rw [pop_ok s h]
    unfold Stack.WF at *
    simp only [Outcome.stack, MAX_STACK] at *
    omega

theorem keepsWF_peek : KeepsWF stack_peek := by
  intro s hwf
  by_cases h : s.top = -1
  · rw [peek_empty s h]; exact hwf
  · rw [peek_ok s h]; exact hwf

theorem stack_init_WF (s : Stack) : (stack_init s).WF := by
  show (-1 : Int) ≤ -1 ∧ (-1 : Int) ≤ 256 - 1
  omega

theorem keepsWF_ite {α : Type} (c : Prop) [Decidable c] (m1 m2 : StackM α) (h1 : KeepsWF m1)
    (h2 : KeepsWF m2) : KeepsWF (if c then m1 else m2) := by
  split
  · exact h1
  · exact h2

theorem keepsWF_fail {α : Type} (f : Fault) :
    KeepsWF (fun s => Outcome.fail f s : StackM α) := fun _ h => h

theorem keepsWF_arith (op : Int → Int → Int) :
    KeepsWF (do
      let b ← stack_pop
      let a ← stack_pop
      stack_push (op a b)
      return "") :=
  keepsWF_bind _ _ keepsWF_pop fun _ => keepsWF_bind _ _ keepsWF_pop fun _ =>
    keepsWF_bind _ _ (keepsWF_push _) fun _ => keepsWF_pure _

theorem keepsWF_execute_command (token : List Char) : KeepsWF (execute_command token) := by
  unfold execute_command
  refine keepsWF_ite _ _ _ (keepsWF_bind _ _ (keepsWF_push _) fun _ => keepsWF_pure _) ?_
  refine keepsWF_ite _ _ _ (keepsWF_arith fun a b => wrap32 (a + b)) ?_
  refine keepsWF_ite _ _ _ (keepsWF_arith fun a b => wrap32 (a - b)) ?_
  refine keepsWF_ite _ _ _ (keepsWF_arith fun a b => wrap32 (a * b)) ?_
  refine keepsWF_ite _ _ _ ?_ ?_
  · refine keepsWF_bind _ _ keepsWF_pop fun b => keepsWF_bind _ _ keepsWF_pop fun a => ?_
    refine keepsWF_ite _ _ _ ?_ ?_
    · exact keepsWF_bind _ _ (keepsWF_fail _) fun _ =>
        keepsWF_bind _ _ (keepsWF_push _) fun _ => keepsWF_pure _
    · exact keepsWF_bind _ _ (keepsWF_pure _) fun _ =>
        keepsWF_bind _ _ (keepsWF_push _) fun _ => keepsWF_pure _
  refine keepsWF_ite _ _ _ ?_ ?_
  · exact keepsWF_bind _ _ keepsWF_peek fun _ =>
      keepsWF_bind _ _ (keepsWF_push _) fun _ => keepsWF_pure _
  refine keepsWF_ite _ _ _ (keepsWF_bind _ _ keepsWF_pop fun _ => keepsWF_pure _) ?_
  refine keepsWF_ite _ _ _ ?_ ?_
  · exact keepsWF_bind _ _ keepsWF_pop fun _ => keepsWF_bind _ _ keepsWF_pop fun _ =>
      keepsWF_bind _ _ (keepsWF_push _) fun _ =>
      keepsWF_bind _ _ (keepsWF_push _) fun _ => keepsWF_pure _
  refine keepsWF_ite _ _ _ ?_ ?_
  · exact keepsWF_bind _ _ keepsWF_pop fun _ => keepsWF_bind _ _ keepsWF_peek fun _ =>
      keepsWF_bind _ _ (keepsWF_push _) fun _ =>
      keepsWF_bind _ _ (keepsWF_push _) fun _ => keepsWF_pure _
  refine keepsWF_ite _ _ _ ?_ ?_
  · exact keepsWF_bind _ _ keepsWF_pop fun _ => keepsWF_bind _ _ keepsWF_pop fun _ =>
      keepsWF_bind _ _ keepsWF_pop fun _ =>
      keepsWF_bind _ _ (keepsWF_push _) fun _ =>
      keepsWF_bind _ _ (keepsWF_push _) fun _ =>
      keepsWF_bind _ _ (keepsWF_push _) fun _ => keepsWF_pure _
  refine keepsWF_ite _ _ _ (keepsWF_bind _ _ keepsWF_pop fun _ => keepsWF_pure _) ?_
  refine keepsWF_ite _ _ _ (fun _ h => h) ?_
  refine keepsWF_ite _ _ _ (fun s _ => stack_init_WF s) ?_
  exact keepsWF_fail _

theorem keepsWF_execute_tokens (toks : List (List Char)) : KeepsWF (execute_tokens toks) := by
  induction toks with
  | nil => exact keepsWF_pure _
  | cons t ts ih =>
    exact keepsWF_bind _ _ (keepsWF_execute_command t)
      (fun _ => keepsWF_bind _ _ ih (fun _ => keepsWF_pure _))

/-- Each call of `strtok` that returns a token leaves strictly less text. -/
theorem strtok_rest_length (p tok rest : List Char) (h : strtok p = some (tok, rest)) :
    rest.length < p.length := by
  unfold strtok at h
  simp only at h
  split_ifs at h with hnil
  simp only [Option.some.injEq, Prod.mk.injEq] at h
  rw [← h.2, List.length_drop]
  have h1 := (List.dropWhile_sublist (l := List.dropWhile is_delim p)
    (fun c => !is_delim c)).length_le
  have h2 := (List.dropWhile_sublist (l := p) is_delim).length_le
  have h3 : 0 < (List.dropWhile is_delim p).length := List.length_pos.mpr hnil
  omega

theorem execute_line_loop_total (fuel : Nat) : ∀ (s : Stack) (out : String) (rest : List Char),
    rest.length < fuel → s.WF →
    ∃ r, execute_line_loop fuel s out rest = some r ∧ r.stack.WF := by
  induction fuel with
  | zero => intro s out rest h; omega
  | succ n ih =>
    intro s out rest hlen hwf
    rw [execute_line_loop]
    cases hst : strtok rest with
    | none => exact ⟨_, rfl, hwf⟩
    | some tr =>
      obtain ⟨tok, rest1⟩ := tr
      have hlt := strtok_rest_length rest tok rest1 hst
      have hk := keepsWF_execute_command tok s hwf
      cases hex : execute_command tok s with
      | ok o s1 =>
        rw [hex] at hk
        simp only [hex]
        exact ih s1 (out ++ o) rest1 (by omega) hk
      | fail f s1 =>
        rw [hex] at hk
        simp only [hex]
        exact ⟨_, rfl, hk⟩

/-- C4 (capacity invariant): `stack_init` gives an empty valid stack; the literal push and
every command executed by `execute_command` on a valid stack leave a valid stack; hence,
starting from a freshly initialised stack, after any sequence of tokens that has not failed
the size is within `[0, 256]` and `top` within `[-1, 255]`; and `execute_line` on a valid
stack returns, leaving a valid stack. -/
theorem C4_capacity_invariant :
    (∀ s : Stack, (stack_init s).WF ∧ (stack_init s).size = 0) ∧
    (∀ (s s1 : Stack) (v : Int), s.WF → stack_push v s = .ok () s1 → s1.WF) ∧
    (∀ (token : List Char) (s : Stack), s.WF → (execute_command token s).stack.WF) ∧
    (∀ (toks : List (List Char)) (s0 s1 : Stack) (o : String),
      execute_tokens toks (stack_init s0) = .ok o s1 →
        0 ≤ s1.size ∧ s1.size ≤ MAX_STACK ∧ -1 ≤ s1.top ∧ s1.top ≤ 255) ∧
    (∀ (s : Stack) (line : List Char), s.WF →
      ∃ r, execute_line s line = some r ∧ 0 ≤ r.stack.size ∧ r.stack.size ≤ MAX_STACK) := by
  refine ⟨fun s => ⟨stack_init_WF s, by show (-1 : Int) + 1 = 0; omega⟩, ?_, ?_, ?_, ?_⟩
  · intro s s1 v hwf h
    have := keepsWF_push v s hwf
    rw [h] at this
    exact this
  · exact fun token s hwf => keepsWF_execute_command token s hwf
  · intro toks s0 s1 o h
    have := keepsWF_execute_tokens toks (stack_init s0) (stack_init_WF s0)
    rw [h] at this
    unfold Stack.WF at this
    simp only [Outcome.stack, MAX_STACK, size_eq] at *
    omega
  · intro s line hwf
    obtain ⟨r, hr, hwf1⟩ := execute_line_loop_total ((line.take 1023).length + 1) s ""
      (line.take 1023) (by omega) hwf
    refine ⟨r, hr, ?_⟩
    unfold Stack.WF at hwf1
    simp only [MAX_STACK, size_eq] at *
    omega

/-- Witness of C4: the line `1 2 + dup` executed on the empty stack. -/
theorem C4_capacity_invariant_witness :
    emptyStack.WF ∧
    (execute_command "dup".toList stack49).stack.WF ∧
    (∃ r, execute_line emptyStack "1 2 + dup".toList = some r ∧
      0 ≤ r.stack.size ∧ r.stack.size ≤ MAX_STACK) :=
  ⟨by decide, C4_capacity_invariant.2.2.1 "dup".toList stack49 (by decide),
    C4_capacity_invariant.2.2.2.2 emptyStack "1 2 + dup".toList (by decide)⟩

/-! ## Underflow -/

/-- C5, counterexample: `+` needs two elements; on the valid stack holding the single
element `7` it fails with StackUnderflow, but the element has been popped before the
failing `stack_pop`: the stack at the failure is empty, not the stack before the command. -/
theorem C5_underflow_counterexample :
    stack7.WF ∧ stack7.size = 1 ∧ stack7.contents = [7] ∧
    execute_command "+".toList stack7 = .fail .underflow ⟨stack7.data, -1⟩ ∧
    (execute_command "+".toList stack7).stack.size = 0 ∧
    (execute_command "+".toList stack7).stack.contents = [] := by
  refine ⟨by decide, by decide, by decide, rfl, by decide, by decide⟩

/-- C5, amended (underflow): a command of the table that needs `k` elements, executed on a
valid stack holding fewer than `k` elements, fails with StackUnderflow and pushes nothing;
the elements that were on the stack have been popped before the failing pop or peek, so
the stack at the failure is empty, over the same cells; it is the stack before the
command exactly when that stack was empty. -/
theorem C5_underflow_amended (token : List Char) (k : Int) (s : Stack)
    (hmem : (token, k) ∈ arity_table) (hwf : s.WF) (hlt : s.size < k) :
    ∃ f s1, execute_command token s = .fail f s1 ∧ f.kind = .StackUnderflow ∧
      s1.data = s.data ∧ s1.size = 0 ∧ s1.contents = [] ∧ (s.size = 0 → s1 = s) := by
  obtain ⟨d, t⟩ := s
  obtain ⟨hlo, hhi⟩ := hwf
  simp only [Stack.size] at hlt hlo ⊢
  simp only [arity_table, List.mem_cons, Prod.mk.injEq, List.mem_nil_iff, or_false] at hmem
  have ht : t = -1 ∨ t = 0 ∨ t = 1 := by
    rcases hmem with h | h | h | h | h | h | h | h | h <;> (rw [h.2] at hlt; omega)
  rcases hmem with h | h | h | h | h | h | h | h | h <;> obtain ⟨rfl, rfl⟩ := h <;>
    rcases ht with rfl | rfl | rfl <;>
    first
    | (exfalso; omega)
    | exact ⟨_, _, rfl, rfl, rfl, rfl, rfl, fun _ => rfl⟩
    | exact ⟨_, _, rfl, rfl, rfl, rfl, rfl, fun h => absurd h (by decide)⟩

/-- Witness of C5 (amended): `rot` on the stack `4 9`. -/
theorem C5_underflow_amended_witness :
    ("rot".toList, (3 : Int)) ∈ arity_table ∧ stack49.WF ∧ stack49.size < 3 ∧
    ∃ f s1, execute_command "rot".toList stack49 = .fail f s1 ∧ f.kind = .StackUnderflow ∧
      s1.data = stack49.data ∧ s1.size = 0 ∧ s1.contents = [] ∧
      (stack49.size = 0 → s1 = stack49) :=
  ⟨by decide, by decide, by decide,
    C5_underflow_amended "rot".toList 3 stack49 (by decide) (by decide) (by decide)⟩

/-! ## Arithmetic -/

theorem wrap32_of_inRange (x : Int) (h : InIntRange x) : wrap32 x = x := by
  unfold InIntRange INT_MIN INT_MAX at h
  unfold wrap32
  omega

theorem wrap32_inRange (x : Int) : InIntRange (wrap32 x) := by
  unfold InIntRange INT_MIN INT_MAX wrap32
  omega

/-- Two pops on a valid stack whose contents are `below ++ [a, b]`. -/
theorem pop2_spec (s : Stack) (hwf : s.WF) (below : List Int) (a b : Int)
    (h : s.contents = below ++ [a, b]) :
    ∃ s1 s2, stack_pop s = .ok b s1 ∧ stack_pop s1 = .ok a s2 ∧ s1.contents = below ++ [a] ∧
      s2.contents = below ∧ s2.top = s.top - 2 ∧ s2.WF ∧ s2.data = s.data ∧ s1.WF := by
  have h' : s.contents = (below ++ [a]) ++ [b] := by simpa using h
  obtain ⟨s1, h1, hc1, ht1, hwf1, hd1⟩ := pop_spec s hwf _ b h'
  obtain ⟨s2, h2, hc2, ht2, hwf2, hd2⟩ := pop_spec s1 hwf1 _ a hc1
  exact ⟨s1, s2, h1, h2, hc1, hc2, by omega, hwf2, by rw [hd2, hd1], hwf1⟩

/-- The common shape of `+`, `-` and `*`: pop `b`, pop `a`, push `op a b`. -/
theorem arith_spec (op : Int → Int → Int) (s : Stack) (hwf : s.WF) (below : List Int)
    (a b : Int) (h : s.contents = below ++ [a, b]) :
    ∃ s1, (do
        let b ← stack_pop
        let a ← stack_pop
        stack_push (op a b)
        return "" : StackM String) s = .ok "" s1 ∧
      s1.contents = below ++ [op a b] ∧ s1.size = s.size - 1 ∧ s1.WF := by
  obtain ⟨s1, s2, h1, h2, _, hc2, ht2, hwf2, _, _⟩ := pop2_spec s hwf below a b h
  have hhi := hwf.2
  simp only [MAX_STACK] at hhi
  obtain ⟨s3, h3, hc3, ht3, hwf3⟩ :=
    push_spec (op a b) s2 hwf2 (by simp only [MAX_STACK]; omega)
  refine ⟨s3, ?_, by rw [hc3, hc2], by simp only [size_eq]; omega, hwf3⟩
  simp [h1, h2, h3]

theorem execute_command_add : execute_command "+".toList = (do
    let b ← stack_pop
    let a ← stack_pop
    stack_push (wrap32 (a + b))
    return "") := rfl

theorem execute_command_sub : execute_command "-".toList = (do
    let b ← stack_pop
    let a ← stack_pop
    stack_push (wrap32 (a - b))
    return "") := rfl

theorem execute_command_mul : execute_command "*".toList = (do
    let b ← stack_pop
    let a ← stack_pop
    stack_push (wrap32 (a * b))
    return "") := rfl

/-- C6 (binary arithmetic): on a valid stack whose contents are `below ++ [a, b]` (top `b`,
second `a`), each of `+`, `-`, `*` succeeds, prints nothing, and leaves `below ++ [r]`, one
element less, where `r` is the 32-bit value of `a + b`, `a - b`, `a * b` respectively, and
is that exact integer whenever it is representable as a 32-bit signed int; so the line
`10 20 -` leaves `-10`. -/
theorem C6_binary_arithmetic (s : Stack) (below : List Int) (a b : Int) (hwf : s.WF)
    (h : s.contents = below ++ [a, b]) :
    (∃ s1 r, execute_command "+".toList s = .ok "" s1 ∧ s1.contents = below ++ [r] ∧
      s1.size = s.size - 1 ∧ InIntRange r ∧ (InIntRange (a + b) → r = a + b)) ∧
    (∃ s1 r, execute_command "-".toList s = .ok "" s1 ∧ s1.contents = below ++ [r] ∧
      s1.size = s.size - 1 ∧ InIntRange r ∧ (InIntRange (a - b) → r = a - b)) ∧
    (∃ s1 r, execute_command "*".toList s = .ok "" s1 ∧ s1.contents = below ++ [r] ∧
      s1.size = s.size - 1 ∧ InIntRange r ∧ (InIntRange (a * b) → r = a * b)) ∧
    (∃ r, execute_line emptyStack "10 20 -".toList = some r ∧ r.fault = none ∧
      r.stack.contents = [-10]) := by
  refine ⟨?_, ?_, ?_, ⟨_, rfl, rfl, by decide⟩⟩
  · obtain ⟨s1, h1, hc, hs, _⟩ := arith_spec (fun a b => wrap32 (a + b)) s hwf below a b h
    exact ⟨s1, _, by rw [execute_command_add]; exact h1, hc, hs, wrap32_inRange _,
      wrap32_of_inRange _⟩
  · obtain ⟨s1, h1, hc, hs, _⟩ := arith_spec (fun a b => wrap32 (a - b)) s hwf below a b h
    exact ⟨s1, _, by rw [execute_command_sub]; exact h1, hc, hs, wrap32_inRange _,
      wrap32_of_inRange _⟩
  · obtain ⟨s1, h1, hc, hs, _⟩ := arith_spec (fun a b => wrap32 (a * b)) s hwf below a b h
    exact ⟨s1, _, by rw [execute_command_mul]; exact h1, hc, hs, wrap32_inRange _,
      wrap32_of_inRange _⟩

/-- Witness of C6: the three commands on the stack `4 9`. -/
theorem C6_binary_arithmetic_witness :
    stack49.WF ∧ stack49.contents = [] ++ [4, 9] ∧
    (∃ s1 r, execute_command "-".toList stack49 = .ok "" s1 ∧ s1.contents = [] ++ [r] ∧
      s1.size = stack49.size - 1 ∧ InIntRange r ∧ (InIntRange (4 - 9) → r = 4 - 9)) :=
  ⟨by decide, by decide, (C6_binary_arithmetic stack49 [] 4 9 (by decide) (by decide)).2.1⟩

/-! ## Division -/

theorem neg_tmod_eq (a b : Int) : (-a).tmod b = -(a.tmod b) := by
  rw [Int.tmod_def, Int.tmod_def, Int.neg_tdiv]
  ring

/-- The remainder of the truncated division is smaller than the divisor in absolute value
and is zero or has the sign of the dividend. -/
theorem tmod_bounds (a b : Int) (hb : b ≠ 0) :
    |a.tmod b| < |b| ∧ (0 ≤ a → 0 ≤ a.tmod b) ∧ (a ≤ 0 → a.tmod b ≤ 0) := by
  have key : ∀ x : Int, 0 ≤ x → 0 ≤ x.tmod b ∧ x.tmod b < |b| := by
    intro x hx
    refine ⟨Int.tmod_nonneg b hx, ?_⟩
    rcases lt_or_gt_of_ne hb with hneg | hpos
    · rw [abs_of_neg hneg, ← Int.tmod_neg]
      exact Int.tmod_lt_of_pos x (by omega)
    · rw [abs_of_pos hpos]
      exact Int.tmod_lt_of_pos x hpos
  rcases le_total 0 a with ha | ha
  · obtain ⟨h1, h2⟩ := key a ha
    refine ⟨by rw [abs_of_nonneg h1]; exact h2, fun _ => h1, fun h => ?_⟩
    have : a = 0 := le_antisymm h ha
    simp [this]
  · obtain ⟨h1, h2⟩ := key (-a) (by omega)
    rw [neg_tmod_eq] at h1 h2
    refine ⟨?_, fun h => ?_, fun _ => by omega⟩
    · rw [abs_of_nonpos (by omega)]; exact h2
    · have : a = 0 := le_antisymm ha h
      simp [this]

/-- The truncated quotient of two 32-bit integers is a 32-bit integer, except for
`INT_MIN / -1`. -/
theorem tdiv_inRange (a b : Int) (ha : InIntRange a) (hb : b ≠ 0)
    (hex : ¬ (a = INT_MIN ∧ b = -1)) : InIntRange (a.tdiv b) := by
  unfold InIntRange INT_MIN INT_MAX at *
  have habs : (a.tdiv b).natAbs ≤ a.natAbs := by
    rw [Int.natAbs_tdiv]
    exact Nat.div_le_self _ _
  refine ⟨by omega, ?_⟩
  by_cases hmin : a = -2147483648
  · by_cases hpos : 0 < b
    · have : a.tdiv b = -((-a).tdiv b) := by rw [Int.neg_tdiv]; omega
      have h2 : 0 ≤ (-a).tdiv b := Int.tdiv_nonneg (by omega) (by omega)
      omega
    · have hb2 : 2 ≤ b.natAbs := by omega
      have h3 : (a.tdiv b).natAbs ≤ a.natAbs / 2 := by
        rw [Int.natAbs_tdiv]
        exact Nat.div_le_div_left hb2 (by decide)
      omega
  · omega

/-- There is only one quotient whose remainder is smaller than the divisor in absolute
value and is zero or has the sign of the dividend. -/
theorem trunc_quotient_unique (a b q r q1 r1 : Int) (hq : a = q * b + r) (hr : |r| < |b|)
    (hs : r = 0 ∨ (0 < r ∧ 0 < a) ∨ (r < 0 ∧ a < 0)) (hq1 : a = q1 * b + r1)
    (hr1 : |r1| < |b|) (hs1 : r1 = 0 ∨ (0 < r1 ∧ 0 < a) ∨ (r1 < 0 ∧ a < 0)) : q1 = q := by
  by_contra hne
  have h1 : 1 ≤ |q1 - q| := Int.one_le_abs (sub_ne_zero.mpr hne)
  have h2 : (q1 - q) * b = r - r1 := by linarith
  have h3 : |q1 - q| * |b| = |r - r1| := by rw [← abs_mul, h2]
  have h4 : |r - r1| < |b| := by
    rw [abs_lt] at hr hr1 ⊢
    have hb0 : 0 ≤ |b| := abs_nonneg b
    rcases hs with h | h | h <;> rcases hs1 with h' | h' | h' <;>
      constructor <;> omega
  have h5 : |b| ≤ |q1 - q| * |b| := by nlinarith [abs_nonneg b]
  omega

theorem execute_command_div : execute_command "/".toList = (do
    let b ← stack_pop
    let a ← stack_pop
    if b = 0 then
      (fun s => Outcome.fail Fault.divZero s : StackM Unit)
    stack_push (wrap32 (Int.tdiv a b))
    return "") := rfl

/-- C7 (division truncates toward zero): on a valid stack whose contents are
`below ++ [a, b]` with `a` a 32-bit integer, `b` not `0`, and not `a = INT_MIN` with
`b = -1`, the command `/` succeeds and leaves `below ++ [q]`, one element less, where `q` is
the quotient truncated toward zero: `a = q * b + r` with `|r| < |b|` and `r` zero or of the
sign of `a`, and `q` is the only integer with such a remainder; so `-7 2 /` and `7 -2 /`
both leave `-3`. -/
theorem C7_division_truncates (s : Stack) (below : List Int) (a b : Int) (hwf : s.WF)
    (h : s.contents = below ++ [a, b]) (ha : InIntRange a) (hb0 : b ≠ 0)
    (hex : ¬ (a = INT_MIN ∧ b = -1)) :
    (∃ s1 q r, execute_command "/".toList s = .ok "" s1 ∧ s1.contents = below ++ [q] ∧
      s1.size = s.size - 1 ∧
      a = q * b + r ∧ |r| < |b| ∧ (r = 0 ∨ (0 < r ∧ 0 < a) ∨ (r < 0 ∧ a < 0)) ∧
      ∀ q1 r1 : Int, a = q1 * b + r1 → |r1| < |b| →
        (r1 = 0 ∨ (0 < r1 ∧ 0 < a) ∨ (r1 < 0 ∧ a < 0)) → q1 = q) ∧
    (∃ r, execute_line emptyStack "-7 2 /".toList = some r ∧ r.fault = none ∧
      r.stack.contents = [-3]) ∧
    (∃ r, execute_line emptyStack "7 -2 /".toList = some r ∧ r.fault = none ∧
      r.stack.contents = [-3]) := by
  refine ⟨?_, ⟨_, rfl, rfl, by decide⟩, ⟨_, rfl, rfl, by decide⟩⟩
  obtain ⟨s1, s2, h1, h2, _, hc2, ht2, hwf2, _, _⟩ := pop2_spec s hwf below a b h
  have hhi := hwf.2
  simp only [MAX_STACK] at hhi
  obtain ⟨s3, h3, hc3, ht3, _⟩ :=
    push_spec (wrap32 (a.tdiv b)) s2 hwf2 (by simp only [MAX_STACK]; omega)
  have hw := wrap32_of_inRange _ (tdiv_inRange a b ha hb0 hex)
  rw [hw] at hc3
  obtain ⟨hm1, hm2, hm3⟩ := tmod_bounds a b hb0
  have hdiv : a = a.tdiv b * b + a.tmod b := (Int.tdiv_add_tmod' a b).symm
  have hsign : a.tmod b = 0 ∨ (0 < a.tmod b ∧ 0 < a) ∨ (a.tmod b < 0 ∧ a < 0) := by
    rcases lt_trichotomy a 0 with hneg | hzero | hpos
    · have := hm3 (by omega)
      omega
    · left; simp [hzero]
    · have := hm2 (by omega)
      omega
  refine ⟨s3, a.tdiv b, a.tmod b, ?_, by rw [hc3, hc2], by simp only [size_eq]; omega, hdiv,
    hm1, hsign, ?_⟩
  · rw [execute_command_div]
    simp [h1, h2, h3, hb0]
  · intro q1 r1 e1 e2 e3
    exact trunc_quotient_unique a b _ _ q1 r1 hdiv hm1 hsign e1 e2 e3

/-- Witness of C7: `/` on the stack `-7 2`. -/
theorem C7_division_truncates_witness :
    stackNeg7_2.WF ∧ stackNeg7_2.contents = [] ++ [-7, 2] ∧
    (∃ s1 q r, execute_command "/".toList stackNeg7_2 = .ok "" s1 ∧ s1.contents = [] ++ [q] ∧
      s1.size = stackNeg7_2.size - 1 ∧
      (-7 : Int) = q * 2 + r ∧ |r| < |(2 : Int)| ∧
      (r = 0 ∨ (0 < r ∧ (0 : Int) < -7) ∨ (r < 0 ∧ (-7 : Int) < 0)) ∧
      ∀ q1 r1 : Int, (-7 : Int) = q1 * 2 + r1 → |r1| < |(2 : Int)| →
        (r1 = 0 ∨ (0 < r1 ∧ (0 : Int) < -7) ∨ (r1 < 0 ∧ (-7 : Int) < 0)) → q1 = q) :=
  ⟨by decide, by decide,
    (C7_division_truncates stackNeg7_2 [] (-7) 2 (by decide) (by decide) (by decide)
      (by decide) (by decide)).1⟩

/-- C8 (division by zero): on a valid stack whose contents are `below ++ [a, 0]`, the
command `/` fails with DivisionByZero after both operands have been popped: nothing is
pushed and the stack at the failure holds `below`, two elements less than before; so
`5 0 /` on an empty stack fails with DivisionByZero and an empty stack. -/
theorem C8_division_by_zero (s : Stack) (below : List Int) (a : Int) (hwf : s.WF)
    (h : s.contents = below ++ [a, 0]) :
    (∃ f s1, execute_command "/".toList s = .fail f s1 ∧ f = .divZero ∧
      f.kind = .DivisionByZero ∧ s1.contents = below ∧ s1.size = s.size - 2 ∧
      s1.data = s.data) ∧
    (∃ r, execute_line emptyStack "5 0 /".toList = some r ∧ r.fault = some .divZero ∧
      r.out = "" ∧ r.stack.size = 0 ∧ r.stack.contents = []) := by
  refine ⟨?_, ⟨_, rfl, rfl, by decide, by decide, by decide⟩⟩
  obtain ⟨s1, s2, h1, h2, _, hc2, ht2, _, hd2, _⟩ := pop2_spec s hwf below a 0 h
  refine ⟨.divZero, s2, ?_, rfl, rfl, hc2, by simp only [size_eq]; omega, hd2⟩
  rw [execute_command_div]
  simp [h1, h2]

/-- Witness of C8: `/` on the stack `4 9 5 0`. -/
theorem C8_division_by_zero_witness :
    stack4950.WF ∧ stack4950.contents = [4, 9] ++ [5, 0] ∧
    (∃ f s1, execute_command "/".toList stack4950 = .fail f s1 ∧ f = .divZero ∧
      f.kind = .DivisionByZero ∧ s1.contents = [4, 9] ∧ s1.size = stack4950.size - 2 ∧
      s1.data = stack4950.data) :=
  ⟨by decide, by decide, (C8_division_by_zero stack4950 [4, 9] 5 (by decide) (by decide)).1⟩

/-! ## Literals -/

theorem isdigit_iff (c : Char) : isdigit c = true ↔ '0' ≤ c ∧ c ≤ '9' := by
  simp [isdigit]

theorem isdigit_not_sign (c : Char) (h : isdigit c = true) : ¬ (c = '-' ∨ c = '+') := by
  rintro (rfl | rfl) <;> revert h <;> decide

theorem is_number_loop_iff (l : List Char) :
    is_number_loop l = true ↔ ∀ c ∈ l, isdigit c = true := by
  induction l with
  | nil => simp [is_number_loop]
  | cons c l ih =>
    by_cases hc : isdigit c = true
    · simp [is_number_loop, hc, ih]
    · simp [is_number_loop, hc]

theorem is_number_sign (c : Char) (rest : List Char) (hc : c = '-' ∨ c = '+') :
    is_number (c :: rest) = (if rest = [] then false else is_number_loop rest) := by
  simp only [is_number, if_pos hc]

theorem is_number_nosign (c : Char) (rest : List Char) (hc : ¬ (c = '-' ∨ c = '+')) :
    is_number (c :: rest) = is_number_loop (c :: rest) := by
  simp only [is_number, if_neg hc]
  simp

/-- Function `is_number` accepts exactly the tokens of the integer-literal grammar. -/
theorem is_number_iff (token : List Char) : is_number token = true ↔ IsIntegerLiteral token := by
  constructor
  · intro h
    cases token with
    | nil => simp [is_number] at h
    | cons c rest =>
      by_cases hc : c = '-' ∨ c = '+'
      · rw [is_number_sign c rest hc] at h
        by_cases hr : rest = []
        · simp [hr] at h
        · rw [if_neg hr, is_number_loop_iff] at h
          refine ⟨[c], rest, rfl, ?_, hr, fun x hx => (isdigit_iff x).mp (h x hx)⟩
          rcases hc with rfl | rfl <;> simp
      · rw [is_number_nosign c rest hc, is_number_loop_iff] at h
        exact ⟨[], c :: rest, rfl, Or.inl rfl, by simp, fun x hx => (isdigit_iff x).mp (h x hx)⟩
  · rintro ⟨sign, digits, rfl, hs, hne, hd⟩
    have hall : ∀ c ∈ digits, isdigit c = true := fun c hc => (isdigit_iff c).mpr (hd c hc)
    rcases hs with rfl | rfl | rfl
    · cases digits with
      | nil => exact absurd rfl hne
      | cons c rest =>
        have hc := isdigit_not_sign c (hall c (by simp))
        rw [List.nil_append, is_number_nosign c rest hc, is_number_loop_iff]
        exact hall
    · rw [List.singleton_append, is_number_sign _ _ (Or.inr rfl), if_neg hne,
        is_number_loop_iff]
      exact hall
    · rw [List.singleton_append, is_number_sign _ _ (Or.inl rfl), if_neg hne,
        is_number_loop_iff]
      exact hall

/-- C9 (`is_number`): a token is accepted if and only if it consists of an optional single
leading `+` or `-` followed by one or more decimal digits and nothing else; the empty token,
the lone signs, the tokens with two signs and the tokens with a non-digit after the sign are
rejected. -/
theorem C9_is_number_grammar :
    (∀ token : List Char, is_number token = true ↔ IsIntegerLiteral token) ∧
    is_number "".toList = false ∧ is_number "+".toList = false ∧
    is_number "-".toList = false ∧ is_number "--1".toList = false ∧
    is_number "+-1".toList = false ∧ is_number "12a".toList = false ∧
    is_number "1.5".toList = false ∧
    is_number "12".toList = true ∧ is_number "-12".toList = true ∧
    is_number "+12".toList = true :=
  ⟨is_number_iff, by decide, by decide, by decide, by decide, by decide, by decide, by decide,
    by decide, by decide, by decide⟩

theorem foldl_digits (ds : List Char) : ∀ acc : Nat,
    ds.foldl (fun acc c => acc * 10 + digit_value c) acc
      = acc * 10 ^ ds.length + decimal_value ds := by
  induction ds with
  | nil => intro acc; simp [decimal_value]
  | cons c ds ih =>
    intro acc
    rw [List.foldl_cons, ih]
    simp only [decimal_value, List.reverse_cons, List.map_append, List.map_cons, List.map_nil,
      Nat.ofDigits_append, Nat.ofDigits_singleton, List.length_map, List.length_reverse,
      List.length_cons]
    ring

theorem atoi_digits_eq (ds : List Char) (hd : ∀ c ∈ ds, isdigit c = true) :
    atoi_digits ds = decimal_value ds := by
  have ht : ds.takeWhile isdigit = ds := List.takeWhile_eq_self_iff.mpr hd
  rw [atoi_digits, ht, foldl_digits]
  simp

theorem isdigit_not_space (c : Char) (h : isdigit c = true) : isspace c = false := by
  cases hs : isspace c with
  | false => rfl
  | true =>
    simp only [isspace, Bool.or_eq_true, decide_eq_true_eq] at hs
    rcases hs with ((((rfl | rfl) | rfl) | rfl) | rfl) | rfl <;> revert h <;> decide

theorem atoi_plus (digits : List Char) (hd : ∀ c ∈ digits, isdigit c = true) :
    atoi ('+' :: digits) = wrap32 (max LONG_MIN (min (decimal_value digits : Int) LONG_MAX)) := by
  have hs : isspace '+' = false := by decide
  simp [atoi, List.dropWhile, hs, atoi_digits_eq digits hd]

theorem atoi_minus (digits : List Char) (hd : ∀ c ∈ digits, isdigit c = true) :
    atoi ('-' :: digits) = wrap32 (max LONG_MIN (min (-(decimal_value digits : Int)) LONG_MAX)) := by
  have hs : isspace '-' = false := by decide
  simp [atoi, List.dropWhile, hs, atoi_digits_eq digits hd]

theorem atoi_nosign (c : Char) (rest : List Char) (hd : ∀ x ∈ c :: rest, isdigit x = true) :
    atoi (c :: rest) = wrap32 (max LONG_MIN (min (decimal_value (c :: rest) : Int) LONG_MAX)) := by
  have hc := hd c (by simp)
  have hs : isspace c = false := isdigit_not_space c hc
  have hsign := isdigit_not_sign c hc
  push_neg at hsign
  unfold atoi
  simp only [List.dropWhile, hs]
  split
  · rename_i h; simp at h; exact absurd h.1 hsign.1
  · rename_i h; simp at h; exact absurd h.1 hsign.2
  · rw [atoi_digits_eq _ hd]

theorem literal_value_nosign (c : Char) (rest : List Char) (hc : isdigit c = true) :
    literal_value (c :: rest) = (decimal_value (c :: rest) : Int) := by
  have hsign := isdigit_not_sign c hc
  push_neg at hsign
  unfold literal_value
  split
  · rename_i h; simp at h; exact absurd h.1 hsign.1
  · rename_i h; simp at h; exact absurd h.1 hsign.2
  · rfl

/-- On a literal, `atoi` returns the denoted integer, clamped to `long` and truncated to
32 bits. -/
theorem atoi_literal (token : List Char) (h : IsIntegerLiteral token) :
    atoi token = wrap32 (max LONG_MIN (min (literal_value token) LONG_MAX)) := by
  obtain ⟨sign, digits, rfl, hs, hne, hd⟩ := h
  have hall : ∀ c ∈ digits, isdigit c = true := fun c hc => (isdigit_iff c).mpr (hd c hc)
  rcases hs with rfl | rfl | rfl
  · cases digits with
    | nil => exact absurd rfl hne
    | cons c rest =>
      rw [List.nil_append, atoi_nosign c rest hall, literal_value_nosign c rest (hall c (by simp))]
  · rw [List.singleton_append, atoi_plus digits hall]
    rfl
  · rw [List.singleton_append, atoi_minus digits hall]
    rfl

theorem atoi_exact (token : List Char) (h : IsIntegerLiteral token)
    (hr : InIntRange (literal_value token)) : atoi token = literal_value token := by
  rw [atoi_literal token h]
  have h1 : max LONG_MIN (min (literal_value token) LONG_MAX) = literal_value token := by
    unfold InIntRange INT_MIN INT_MAX at hr
    unfold LONG_MIN LONG_MAX
    omega
  rw [h1]
  exact wrap32_of_inRange _ hr

theorem atoi_inRange (nptr : List Char) : InIntRange (atoi nptr) := wrap32_inRange _

theorem execute_command_literal (token : List Char) (h : is_number token = true) :
    execute_command token = (do
      stack_push (atoi token)
      return "") := by
  unfold execute_command
  rw [if_pos h]

/-- C10 (literal precedence): a token of the integer-literal grammar is executed as the
push of `atoi token` and nothing else, on every stack, so that the only fault it can give
is the StackOverflow of the push, never UnknownCommand; on a valid stack that is not full
it succeeds, prints nothing and appends one value to the contents, the size growing by
one; the value is the signed decimal integer the token denotes whenever that integer fits
in a 32-bit signed int; so `+5` pushes `5`, `-5` pushes `-5`, `007` pushes `7`. -/
theorem C10_literal_precedence (token : List Char) (s : Stack) (hlit : IsIntegerLiteral token)
    (hwf : s.WF) (hnf : s.size < MAX_STACK) :
    (∃ s1 v, execute_command token s = .ok "" s1 ∧ s1.contents = s.contents ++ [v] ∧
      s1.size = s.size + 1 ∧ InIntRange v ∧
      (InIntRange (literal_value token) → v = literal_value token)) ∧
    execute_command token = (do
      stack_push (atoi token)
      return "") ∧
    (∀ (s2 s3 : Stack) (f : Fault), execute_command token s2 = .fail f s3 →
      f = .overflow ∧ f.kind ≠ .UnknownCommand ∧ s3 = s2) ∧
    (execute_command "+5".toList emptyStack).stack.contents = [5] ∧
    (execute_command "-5".toList emptyStack).stack.contents = [-5] ∧
    (execute_command "007".toList emptyStack).stack.contents = [7] := by
  have hnum := (is_number_iff token).mpr hlit
  have heq := execute_command_literal token hnum
  refine ⟨?_, heq, ?_, by decide, by decide, by decide⟩
  · simp only [size_eq, MAX_STACK] at hnf
    obtain ⟨s1, h1, hc1, ht1, _⟩ :=
      push_spec (atoi token) s hwf (by simp only [MAX_STACK]; omega)
    refine ⟨s1, atoi token, ?_, hc1, by simp only [size_eq]; omega, atoi_inRange _,
      atoi_exact token hlit⟩
    rw [heq]
    simp [h1]
  · intro s2 s3 f hf
    rw [heq] at hf
    by_cases hfull : s2.top < MAX_STACK - 1
    · simp [push_ok _ s2 hfull] at hf
    · simp [push_full _ s2 (not_lt.mp hfull)] at hf
      obtain ⟨rfl, rfl⟩ := hf
      exact ⟨rfl, by decide, rfl⟩

/-- Witness of C10: the token `-42` on the stack `4 9`. -/
theorem C10_literal_precedence_witness :
    IsIntegerLiteral "-42".toList ∧ stack49.WF ∧ stack49.size < MAX_STACK ∧
    (∃ s1 v, execute_command "-42".toList stack49 = .ok "" s1 ∧
      s1.contents = stack49.contents ++ [v] ∧ s1.size = stack49.size + 1 ∧ InIntRange v ∧
      (InIntRange (literal_value "-42".toList) → v = literal_value "-42".toList)) :=
  ⟨⟨['-'], ['4', '2'], rfl, by simp, by simp, by decide⟩, by decide, by decide,
    (C10_literal_precedence "-42".toList stack49
      ⟨['-'], ['4', '2'], rfl, by simp, by simp, by decide⟩ (by decide) (by decide)).1⟩

/-! ## Unknown commands -/

theorem execute_command_dup : execute_command "dup".toList = (do
    let val ← stack_peek
    stack_push val
    return "") := rfl

theorem execute_command_drop : execute_command "drop".toList = (do
    let _ ← stack_pop
    return "") := rfl

theorem execute_command_swap : execute_command "swap".toList = (do
    let b ← stack_pop
    let a ← stack_pop
    stack_push b
    stack_push a
    return "") := rfl

theorem execute_command_over : execute_command "over".toList = (do
    let b ← stack_pop
    let a ← stack_peek
    stack_push b
    stack_push a
    return "") := rfl

theorem execute_command_rot : execute_command "rot".toList = (do
    let c ← stack_pop
    let b ← stack_pop
    let a ← stack_pop
    stack_push b
    stack_push c
    stack_push a
    return "") := rfl

theorem execute_command_print : execute_command "print".toList = (do
    let v ← stack_pop
    return fmt_d v ++ "\n") := rfl

theorem execute_command_dot_s :
    execute_command ".s".toList = fun s => .ok (print_stack s) s := rfl

theorem execute_command_clear :
    execute_command "clear".toList = fun s => .ok "" (stack_init s) := rfl

theorem noUnknown_pure {α : Type} (a : α) : NoUnknown (pure a : StackM α) := by
  intro s s1 f h
  cases h

theorem noUnknown_bind {α β : Type} (m : StackM α) (k : α → StackM β) (hm : NoUnknown m)
    (hk : ∀ a, NoUnknown (k a)) : NoUnknown (m >>= k) := by
  intro s s1 f h
  rw [bind_apply] at h
  cases hms : m s with
  | ok a s2 => rw [hms] at h; exact hk a s2 s1 f h
  | fail g s2 =>
    rw [hms] at h
    cases h
    exact hm s s1 f hms

theorem noUnknown_push (v : Int) : NoUnknown (stack_push v) := by
  intro s s1 f h
  unfold stack_push at h
  split at h
  · cases h; decide
  · cases h

theorem noUnknown_pop : NoUnknown stack_pop := by
  intro s s1 f h
  unfold stack_pop at h
  split at h
  · cases h; decide
  · cases h

theorem noUnknown_peek : NoUnknown stack_peek := by
  intro s s1 f h
  unfold stack_peek at h
  split at h
  · cases h; decide
  · cases h

theorem noUnknown_arith (op : Int → Int → Int) :
    NoUnknown (do
      let b ← stack_pop
      let a ← stack_pop
      stack_push (op a b)
      return "") :=
  noUnknown_bind _ _ noUnknown_pop fun _ => noUnknown_bind _ _ noUnknown_pop fun _ =>
    noUnknown_bind _ _ (noUnknown_push _) fun _ => noUnknown_pure _

/-- None of the twelve commands ends with the diagnostic of an unknown command. -/
theorem noUnknown_command (name : List Char) (h : name ∈ command_names) :
    NoUnknown (execute_command name) := by
  simp only [command_names, List.mem_cons, List.mem_nil_iff, or_false] at h
  rcases h with rfl | rfl | rfl | rfl | rfl | rfl | rfl | rfl | rfl | rfl | rfl | rfl
  · rw [execute_command_add]; exact noUnknown_arith _
  · rw [execute_command_sub]; exact noUnknown_arith _
  · rw [execute_command_mul]; exact noUnknown_arith _
  · rw [execute_command_div]
    refine noUnknown_bind _ _ noUnknown_pop fun b => noUnknown_bind _ _ noUnknown_pop fun a => ?_
    by_cases hb : b = 0
    · simp only [hb, if_true]
      refine noUnknown_bind _ _ ?_ fun _ =>
        noUnknown_bind _ _ (noUnknown_push _) fun _ => noUnknown_pure _
      intro s s1 f h
      cases h
      decide
    · simp only [hb, if_false]
      exact noUnknown_bind _ _ (noUnknown_pure _) fun _ =>
        noUnknown_bind _ _ (noUnknown_push _) fun _ => noUnknown_pure _
  · rw [execute_command_dup]
    exact noUnknown_bind _ _ noUnknown_peek fun _ =>
      noUnknown_bind _ _ (noUnknown_push _) fun _ => noUnknown_pure _
  · rw [execute_command_drop]
    exact noUnknown_bind _ _ noUnknown_pop fun _ => noUnknown_pure _
  · rw [execute_command_swap]
    exact noUnknown_bind _ _ noUnknown_pop fun _ => noUnknown_bind _ _ noUnknown_pop fun _ =>
      noUnknown_bind _ _ (noUnknown_push _) fun _ =>
      noUnknown_bind _ _ (noUnknown_push _) fun _ => noUnknown_pure _
  · rw [execute_command_over]
    exact noUnknown_bind _ _ noUnknown_pop fun _ => noUnknown_bind _ _ noUnknown_peek fun _ =>
      noUnknown_bind _ _ (noUnknown_push _) fun _ =>
      noUnknown_bind _ _ (noUnknown_push _) fun _ => noUnknown_pure _
  · rw [execute_command_rot]
    exact noUnknown_bind _ _ noUnknown_pop fun _ => noUnknown_bind _ _ noUnknown_pop fun _ =>
      noUnknown_bind _ _ noUnknown_pop fun _ =>
      noUnknown_bind _ _ (noUnknown_push _) fun _ =>
      noUnknown_bind _ _ (noUnknown_push _) fun _ =>
      noUnknown_bind _ _ (noUnknown_push _) fun _ => noUnknown_pure _
  · rw [execute_command_print]
    exact noUnknown_bind _ _ noUnknown_pop fun _ => noUnknown_pure _
  · rw [execute_command_dot_s]
    intro s s1 f h
    cases h
  · rw [execute_command_clear]
    intro s s1 f h
    cases h

/-- A token that is neither a number nor a command name reaches the last branch. -/
theorem execute_command_unknown (token : List Char) (hnum : ¬ is_number token = true)
    (hname : token ∉ command_names) :
    execute_command token = fun s => .fail (.unknown token) s := by
  have hne : ∀ name ∈ command_names, ¬ token = name := fun name hm e => hname (e ▸ hm)
  unfold execute_command
  rw [if_neg hnum, if_neg (hne _ (by decide)), if_neg (hne _ (by decide)),
    if_neg (hne _ (by decide)), if_neg (hne _ (by decide)), if_neg (hne _ (by decide)),
    if_neg (hne _ (by decide)), if_neg (hne _ (by decide)), if_neg (hne _ (by decide)),
    if_neg (hne _ (by decide)), if_neg (hne _ (by decide)), if_neg (hne _ (by decide)),
    if_neg (hne _ (by decide))]

/-- C11 (unknown command): a token that is neither an integer literal nor exactly one of
the twelve command names makes `execute_command` fail, on every stack, with UnknownCommand
carrying the text of the token, the stack at the failure being the stack before the call
(so for `foo`, `DUP`, `Print`, `.S`); conversely a literal or one of the twelve names never
fails with UnknownCommand. -/
theorem C11_unknown_command :
    (∀ (token : List Char) (s : Stack), ¬ IsIntegerLiteral token → token ∉ command_names →
      execute_command token s = .fail (.unknown token) s ∧
      (Fault.unknown token).kind = .UnknownCommand ∧
      (Fault.unknown token).message =
        "Errore: comando sconosciuto '" ++ String.mk token ++ "'\n") ∧
    (∀ (token : List Char) (s s1 : Stack) (f : Fault),
      IsIntegerLiteral token ∨ token ∈ command_names →
      execute_command token s = .fail f s1 → f.kind ≠ .UnknownCommand) ∧
    execute_command "foo".toList emptyStack = .fail (.unknown "foo".toList) emptyStack ∧
    execute_command "DUP".toList stack49 = .fail (.unknown "DUP".toList) stack49 ∧
    execute_command "Print".toList stack49 = .fail (.unknown "Print".toList) stack49 ∧
    execute_command ".S".toList stack49 = .fail (.unknown ".S".toList) stack49 ∧
    (Fault.unknown "foo".toList).message = "Errore: comando sconosciuto 'foo'\n" := by
  refine ⟨?_, ?_, rfl, rfl, rfl, rfl, by decide⟩
  · intro token s hlit hname
    have hnum : ¬ is_number token = true := fun h => hlit ((is_number_iff token).mp h)
    rw [execute_command_unknown token hnum hname]
    exact ⟨rfl, rfl, rfl⟩
  · intro token s s1 f hcase h
    rcases hcase with hlit | hname
    · rw [execute_command_literal token ((is_number_iff token).mpr hlit)] at h
      exact noUnknown_bind _ _ (noUnknown_push _) (fun _ => noUnknown_pure _) s s1 f h
    · exact noUnknown_command token hname s s1 f h

/-- Witness of C11: the token `DUP` on the stack `4 9`, and the command `dup` on the empty
stack. -/
theorem C11_unknown_command_witness :
    ¬ IsIntegerLiteral "DUP".toList ∧ "DUP".toList ∉ command_names ∧
    execute_command "DUP".toList stack49 = .fail (.unknown "DUP".toList) stack49 ∧
    (execute_command "dup".toList emptyStack = .fail .emptyPeek emptyStack →
      Fault.emptyPeek.kind ≠ .UnknownCommand) :=
  ⟨fun h => absurd ((is_number_iff _).mpr h) (by decide), by decide,
    (C11_unknown_command.1 "DUP".toList stack49
      (fun h => absurd ((is_number_iff _).mpr h) (by decide)) (by decide)).1,
    C11_unknown_command.2.1 "dup".toList emptyStack emptyStack .emptyPeek
      (Or.inr (by decide))⟩

/-! ## Stack shuffles -/

/-- C13, counterexample: a full stack is not empty, and `dup` on it does not succeed: the
peek returns the top, and the push exits with the overflow diagnostic. -/
theorem C13_dup_counterexample :
    fullStack.WF ∧ fullStack.size = 256 ∧
    execute_command "dup".toList fullStack = .fail .overflow fullStack := by
  refine ⟨by decide, by decide, rfl⟩

/-- C13, amended (`dup`): on a valid stack whose contents are `below ++ [a]` and which holds
fewer than 256 elements, the command `dup` succeeds, prints nothing, and leaves
`below ++ [a, a]`: the size grows by one, the two top elements are the former top, and the
other elements are unchanged. -/
theorem C13_dup_amended (s : Stack) (below : List Int) (a : Int) (hwf : s.WF)
    (h : s.contents = below ++ [a]) (hnf : s.size < MAX_STACK) :
    ∃ s1, execute_command "dup".toList s = .ok "" s1 ∧ s1.contents = below ++ [a, a] ∧
      s1.size = s.size + 1 ∧ s1.WF := by
  simp only [size_eq, MAX_STACK] at hnf
  obtain ⟨s1, h1, hc1, ht1, hwf1⟩ := push_spec a s hwf (by simp only [MAX_STACK]; omega)
  refine ⟨s1, ?_, by rw [hc1, h]; simp, by simp only [size_eq]; omega, hwf1⟩
  rw [execute_command_dup]
  simp [peek_spec s below a h, h1]

/-- Witness of C13 (amended): `dup` on the stack `4 9`. -/
theorem C13_dup_amended_witness :
    stack49.WF ∧ stack49.contents = [4] ++ [9] ∧ stack49.size < MAX_STACK ∧
    ∃ s1, execute_command "dup".toList stack49 = .ok "" s1 ∧ s1.contents = [4] ++ [9, 9] ∧
      s1.size = stack49.size + 1 ∧ s1.WF :=
  ⟨by decide, by decide, by decide,
    C13_dup_amended stack49 [4] 9 (by decide) (by decide) (by decide)⟩

/-- The command `swap` on a valid stack whose contents are `below ++ [a, b]`. -/
theorem swap_spec (s : Stack) (below : List Int) (a b : Int) (hwf : s.WF)
    (h : s.contents = below ++ [a, b]) :
    ∃ s1, execute_command "swap".toList s = .ok "" s1 ∧ s1.contents = below ++ [b, a] ∧
      s1.size = s.size ∧ s1.WF := by
  obtain ⟨s1, s2, h1, h2, _, hc2, ht2, hwf2, _, _⟩ := pop2_spec s hwf below a b h
  have hhi := hwf.2
  simp only [MAX_STACK] at hhi
  obtain ⟨s3, h3, hc3, ht3, hwf3⟩ := push_spec b s2 hwf2 (by simp only [MAX_STACK]; omega)
  obtain ⟨s4, h4, hc4, ht4, hwf4⟩ := push_spec a s3 hwf3 (by simp only [MAX_STACK]; omega)
  refine ⟨s4, ?_, by rw [hc4, hc3, hc2]; simp, by simp only [size_eq]; omega, hwf4⟩
  rw [execute_command_swap]
  simp [h1, h2, h3, h4]

/-- C14 (`swap` is an involution): on a valid stack whose contents are `below ++ [a, b]`,
the command `swap` succeeds and leaves `below ++ [b, a]`, and a second `swap` succeeds and
leaves a stack with the contents, in the same order, and the size of the first one. -/
theorem C14_swap_involution (s : Stack) (below : List Int) (a b : Int) (hwf : s.WF)
    (h : s.contents = below ++ [a, b]) :
    ∃ s1 s2, execute_command "swap".toList s = .ok "" s1 ∧ s1.contents = below ++ [b, a] ∧
      execute_command "swap".toList s1 = .ok "" s2 ∧ s2.contents = s.contents ∧
      s2.size = s.size := by
  obtain ⟨s1, h1, hc1, hs1, hwf1⟩ := swap_spec s below a b hwf h
  obtain ⟨s2, h2, hc2, hs2, _⟩ := swap_spec s1 below b a hwf1 hc1
  exact ⟨s1, s2, h1, hc1, h2, by rw [hc2, h], by rw [hs2, hs1]⟩

/-- Witness of C14: `swap` twice on the stack `4 9`. -/
theorem C14_swap_involution_witness :
    stack49.WF ∧ stack49.contents = [] ++ [4, 9] ∧
    ∃ s1 s2, execute_command "swap".toList stack49 = .ok "" s1 ∧
      s1.contents = [] ++ [9, 4] ∧
      execute_command "swap".toList s1 = .ok "" s2 ∧ s2.contents = stack49.contents ∧
      s2.size = stack49.size :=
  ⟨by decide, by decide, C14_swap_involution stack49 [] 4 9 (by decide) (by decide)⟩

/-- The command `rot` on a valid stack whose contents are `below ++ [a, b, c]`. -/
theorem rot_spec (s : Stack) (below : List Int) (a b c : Int) (hwf : s.WF)
    (h : s.contents = below ++ [a, b, c]) :
    ∃ s1, execute_command "rot".toList s = .ok "" s1 ∧ s1.contents = below ++ [b, c, a] ∧
      s1.size = s.size ∧ s1.WF := by
  have h' : s.contents = (below ++ [a, b]) ++ [c] := by simpa using h
  obtain ⟨s1, h1, hc1, ht1, hwf1, _⟩ := pop_spec s hwf _ c h'
  obtain ⟨s2, s3, h2, h3, _, hc3, ht3, hwf3, _, _⟩ := pop2_spec s1 hwf1 below a b hc1
  have hhi := hwf.2
  simp only [MAX_STACK] at hhi
  obtain ⟨s4, h4, hc4, ht4, hwf4⟩ := push_spec b s3 hwf3 (by simp only [MAX_STACK]; omega)
  obtain ⟨s5, h5, hc5, ht5, hwf5⟩ := push_spec c s4 hwf4 (by simp only [MAX_STACK]; omega)
  obtain ⟨s6, h6, hc6, ht6, hwf6⟩ := push_spec a s5 hwf5 (by simp only [MAX_STACK]; omega)
  refine ⟨s6, ?_, by rw [hc6, hc5, hc4, hc3]; simp, by simp only [size_eq]; omega, hwf6⟩
  rw [execute_command_rot]
  simp [h1, h2, h3, h4, h5, h6]

/-- C15 (`rot` has order three): on a valid stack whose contents are `below ++ [a, b, c]`
(`c` on top), the command `rot` succeeds and leaves `below ++ [b, c, a]` (`a` on top), and
three `rot` in a row succeed and leave a stack with the contents, in the same order, and
the size of the first one. -/
theorem C15_rot_order_three (s : Stack) (below : List Int) (a b c : Int) (hwf : s.WF)
    (h : s.contents = below ++ [a, b, c]) :
    ∃ s1 s2 s3, execute_command "rot".toList s = .ok "" s1 ∧
      s1.contents = below ++ [b, c, a] ∧
      execute_command "rot".toList s1 = .ok "" s2 ∧
      execute_command "rot".toList s2 = .ok "" s3 ∧ s3.contents = s.contents ∧
      s3.size = s.size := by
  obtain ⟨s1, h1, hc1, hs1, hwf1⟩ := rot_spec s below a b c hwf h
  obtain ⟨s2, h2, hc2, hs2, hwf2⟩ := rot_spec s1 below b c a hwf1 hc1
  obtain ⟨s3, h3, hc3, hs3, _⟩ := rot_spec s2 below c a b hwf2 hc2
  exact ⟨s1, s2, s3, h1, hc1, h2, h3, by rw [hc3, h], by rw [hs3, hs2, hs1]⟩

/-- Witness of C15: `rot` three times on the stack `1 2 3`. -/
theorem C15_rot_order_three_witness :
    stack123.WF ∧ stack123.contents = [] ++ [1, 2, 3] ∧
    ∃ s1 s2 s3, execute_command "rot".toList stack123 = .ok "" s1 ∧
      s1.contents = [] ++ [2, 3, 1] ∧
      execute_command "rot".toList s1 = .ok "" s2 ∧
      execute_command "rot".toList s2 = .ok "" s3 ∧ s3.contents = stack123.contents ∧
      s3.size = stack123.size :=
  ⟨by decide, by decide, C15_rot_order_three stack123 [] 1 2 3 (by decide) (by decide)⟩

/-- C16 (`over`): on a valid stack whose contents are `below ++ [a, b]` and which holds
fewer than 256 elements, the command `over` succeeds, prints nothing, and leaves
`below ++ [a, b, a]`: a copy of the second element is on top, the size has grown by one,
and `a`, `b` and the elements below them are unchanged. -/
theorem C16_over_effect (s : Stack) (below : List Int) (a b : Int) (hwf : s.WF)
    (h : s.contents = below ++ [a, b]) (hnf : s.size < MAX_STACK) :
    ∃ s1, execute_command "over".toList s = .ok "" s1 ∧ s1.contents = below ++ [a, b, a] ∧
      s1.size = s.size + 1 := by
  simp only [size_eq, MAX_STACK] at hnf
  have h' : s.contents = (below ++ [a]) ++ [b] := by simpa using h
  obtain ⟨s1, h1, hc1, ht1, hwf1, _⟩ := pop_spec s hwf _ b h'
  have h2 := peek_spec s1 below a hc1
  obtain ⟨s3, h3, hc3, ht3, hwf3⟩ := push_spec b s1 hwf1 (by simp only [MAX_STACK]; omega)
  obtain ⟨s4, h4, hc4, ht4, _⟩ := push_spec a s3 hwf3 (by simp only [MAX_STACK]; omega)
  refine ⟨s4, ?_, by rw [hc4, hc3, hc1]; simp, by simp only [size_eq]; omega⟩
  rw [execute_command_over]
  simp [h1, h2, h3, h4]

/-- Witness of C16: `over` on the stack `4 9`. -/
theorem C16_over_effect_witness :
    stack49.WF ∧ stack49.contents = [] ++ [4, 9] ∧ stack49.size < MAX_STACK ∧
    ∃ s1, execute_command "over".toList stack49 = .ok "" s1 ∧
      s1.contents = [] ++ [4, 9, 4] ∧ s1.size = stack49.size + 1 :=
  ⟨by decide, by decide, by decide,
    C16_over_effect stack49 [] 4 9 (by decide) (by decide) (by decide)⟩

/-! ## The commands `.s` and `clear` -/

theorem foldl_string_append (l : List String) : ∀ acc : String,
    l.foldl (fun r x => r ++ x) acc = acc ++ String.join l := by
  induction l with
  | nil => intro acc; simp [String.join]
  | cons x xs ih =>
    intro acc
    have hj : String.join (x :: xs) = x ++ String.join xs := by
      show List.foldl (fun r x => r ++ x) "" (x :: xs) = x ++ String.join xs
      rw [List.foldl_cons, ih, String.empty_append]
    rw [List.foldl_cons, ih, hj, String.append_assoc]

/-- The text of `print_stack` lists the contents from bottom to top. -/
theorem print_stack_eq (s : Stack) :
    print_stack s =
      "Stack: [ " ++ String.join (s.contents.map fun v => fmt_d v ++ " ") ++ "]\n" := by
  unfold print_stack Stack.contents
  congr 1
  rw [List.map_map, ← foldl_string_append, List.foldl_map]
  congr 1
  funext acc i
  simp [String.append_assoc]

/-- C17 (`.s` and `clear`): on any stack, `.s` succeeds, leaves the stack as it is and
writes "Stack: [ ", the elements from bottom to top each followed by a blank, and "]";
on any stack, `clear` succeeds, prints nothing and leaves an empty valid stack, a second
`clear` changes nothing, and any 256 values can then be pushed. -/
theorem C17_dot_s_clear :
    (∀ s : Stack, execute_command ".s".toList s = .ok (print_stack s) s ∧
      print_stack s =
        "Stack: [ " ++ String.join (s.contents.map fun v => fmt_d v ++ " ") ++ "]\n") ∧
    (∀ s : Stack, execute_command "clear".toList s = .ok "" (stack_init s) ∧
      (stack_init s).size = 0 ∧ (stack_init s).contents = [] ∧ (stack_init s).WF ∧
      execute_command "clear".toList (stack_init s) = .ok "" (stack_init s) ∧
      ∀ vs : List Int, vs.length ≤ 256 →
        ∃ s2, push_all vs (stack_init s) = .ok () s2 ∧ s2.contents = vs ∧
          s2.size = vs.length) ∧
    print_stack stack123 = "Stack: [ 1 2 3 ]\n" ∧
    print_stack emptyStack = "Stack: [ ]\n" := by
  refine ⟨fun s => ⟨rfl, print_stack_eq s⟩, fun s => ?_, by decide, by decide⟩
  refine ⟨rfl, rfl, rfl, stack_init_WF s, rfl, fun vs hvs => ?_⟩
  obtain ⟨s2, h2, hc2, ht2, _⟩ := push_all_spec vs (stack_init s) (stack_init_WF s)
    (by
      have : (stack_init s).size = 0 := rfl
      rw [this]
      simp only [MAX_STACK]
      omega)
  refine ⟨s2, h2, ?_, ?_⟩
  · rw [hc2]
    have : (stack_init s).contents = [] := rfl
    rw [this, List.nil_append]
  · have : (stack_init s).top = -1 := rfl
    rw [size_eq, ht2, this]
    omega

/-- Witness of C17: after `clear` on a full stack, three values can be pushed. -/
theorem C17_dot_s_clear_witness :
    ([1, 2, 3] : List Int).length ≤ 256 ∧
    ∃ s2, push_all [1, 2, 3] (stack_init fullStack) = .ok () s2 ∧ s2.contents = [1, 2, 3] ∧
      s2.size = ([1, 2, 3] : List Int).length :=
  ⟨by decide, (C17_dot_s_clear.2.1 fullStack).2.2.2.2.2 [1, 2, 3] (by decide)⟩

/-! ## Line execution -/

/-- With enough fuel, the loop of `execute_line` executes the tokens `strtok` returns. -/
theorem execute_line_loop_eq (fuel : Nat) : ∀ (s : Stack) (out : String) (rest : List Char),
    rest.length < fuel →
    execute_line_loop fuel s out rest = some (run_tokens (strtok_all fuel rest) s out) := by
  induction fuel with
  | zero => intro s out rest h; omega
  | succ n ih =>
    intro s out rest hlen
    rw [execute_line_loop, strtok_all]
    cases hst : strtok rest with
    | none => rfl
    | some tr =>
      obtain ⟨tok, rest1⟩ := tr
      have hlt := strtok_rest_length rest tok rest1 hst
      cases hex : execute_command tok s with
      | ok o s1 =>
        simp only [run_tokens, hex]
        exact ih s1 (out ++ o) rest1 (by omega)
      | fail f s1 =>
        simp only [run_tokens, hex]

/-- Function `execute_line` always returns: it executes the tokens of the line in turn. -/
theorem execute_line_eq (s : Stack) (line : List Char) :
    execute_line s line = some (run_tokens (line_tokens line) s "") :=
  execute_line_loop_eq _ s "" (line.take 1023) (Nat.lt_succ_self _)

/-- Tokens that are executed without fault can be taken off the front of the list. -/
theorem run_tokens_append (pre : List (List Char)) : ∀ (s s1 : Stack) (out o : String),
    execute_tokens pre s = .ok o s1 →
    ∀ post, run_tokens (pre ++ post) s out = run_tokens post s1 (out ++ o) := by
  induction pre with
  | nil =>
    intro s s1 out o h post
    cases h
    simp
  | cons t ts ih =>
    intro s s1 out o h post
    simp only [execute_tokens, bind_apply] at h
    cases hex : execute_command t s with
    | fail f s2 => rw [hex] at h; cases h
    | ok o1 s2 =>
      rw [hex] at h
      simp only at h
      cases hts : execute_tokens ts s2 with
      | fail f s3 => rw [hts] at h; cases h
      | ok o2 s3 =>
        rw [hts] at h
        simp only [pure_apply] at h
        cases h
        rw [List.cons_append, run_tokens]
        simp only [hex]
        rw [ih s2 _ (out ++ o1) o2 hts post, String.append_assoc]

/-- C12 (fail-fast line execution): let the tokens of a line be `pre`, then `ti`, then
`post`, where the tokens of `pre` are executed from the stack `s` without fault, writing
`o` and leaving `s1`, and `ti` fails on `s1` with fault `f` at the stack `s2`. Then
`execute_line` returns with exactly that fault, the output `o` and the stack `s2`: the
effects of `pre` are kept, and nothing depends on `post`, so that every line whose tokens
start with `pre` and `ti` gives the same result. -/
theorem C12_fail_fast (s s1 s2 : Stack) (line : List Char) (pre post : List (List Char))
    (ti : List Char) (o : String) (f : Fault)
    (htok : line_tokens line = pre ++ ti :: post)
    (hpre : execute_tokens pre s = .ok o s1)
    (hfail : execute_command ti s1 = .fail f s2) :
    execute_line s line = some { out := o, stack := s2, fault := some f } ∧
    ∀ (line1 : List Char) (post1 : List (List Char)),
      line_tokens line1 = pre ++ ti :: post1 → execute_line s line1 = execute_line s line := by
  have key : ∀ (l : List Char) (p : List (List Char)), line_tokens l = pre ++ ti :: p →
      execute_line s l = some { out := o, stack := s2, fault := some f } := by
    intro l p hl
    rw [execute_line_eq, hl, run_tokens_append pre s s1 "" o hpre, run_tokens]
    simp only [hfail, String.empty_append]
  exact ⟨key line post htok, fun line1 post1 h1 => by rw [key line1 post1 h1, key line post htok]⟩

/-- Witness of C12: in the line `1 + 2` on the empty stack, the token `+` fails after the
`1` has been pushed and popped again. -/
theorem C12_fail_fast_witness :
    line_tokens "1 + 2".toList = ["1".toList] ++ "+".toList :: ["2".toList] ∧
    execute_tokens ["1".toList] emptyStack
      = .ok "" (execute_tokens ["1".toList] emptyStack).stack ∧
    execute_command "+".toList (execute_tokens ["1".toList] emptyStack).stack
      = .fail .underflow
          (execute_command "+".toList (execute_tokens ["1".toList] emptyStack).stack).stack ∧
    execute_line emptyStack "1 + 2".toList =
      some { out := "",
             stack :=
              (execute_command "+".toList (execute_tokens ["1".toList] emptyStack).stack).stack,
             fault := some .underflow } :=
  ⟨by decide, rfl, rfl,
    (C12_fail_fast emptyStack (execute_tokens ["1".toList] emptyStack).stack
      (execute_command "+".toList (execute_tokens ["1".toList] emptyStack).stack).stack
      "1 + 2".toList ["1".toList] ["2".toList] "+".toList "" .underflow (by decide) rfl rfl).1⟩

theorem strtok_none_of_delims (p : List Char) (h : ∀ c ∈ p, is_delim c = true) :
    strtok p = none := by
  have : p.dropWhile is_delim = [] := List.dropWhile_eq_nil_iff.mpr h
  simp [strtok, this]

/-- A line made of delimiters only has no token. -/
theorem line_tokens_blank (line : List Char) (h : ∀ c ∈ line, is_delim c = true) :
    line_tokens line = [] := by
  have h1 : ∀ c ∈ line.take 1023, is_delim c = true :=
    fun c hc => h c (List.mem_of_mem_take hc)
  simp only [line_tokens, strtok_all, strtok_none_of_delims _ h1]

theorem is_delim_iff (c : Char) : is_delim c = true ↔ c = ' ' ∨ c = '\t' ∨ c = '\n' := by
  simp [is_delim, or_assoc]

/-- C19 (empty line): for every stack and every line that is empty or made only of blanks,
tabs and newlines, `execute_line` returns without fault, writes nothing and leaves the
stack as it was. -/
theorem C19_empty_line (s : Stack) (line : List Char)
    (h : ∀ c ∈ line, c = ' ' ∨ c = '\t' ∨ c = '\n') :
    execute_line s line = some { out := "", stack := s, fault := none } := by
  rw [execute_line_eq, line_tokens_blank line fun c hc => (is_delim_iff c).mpr (h c hc)]
  rfl

/-- Witness of C19: the line made of a blank, a tab, a newline and a blank on the stack
`4 9`. -/
theorem C19_empty_line_witness :
    (∀ c ∈ " \t\n ".toList, c = ' ' ∨ c = '\t' ∨ c = '\n') ∧
    execute_line stack49 " \t\n ".toList = some { out := "", stack := stack49, fault := none } ∧
    execute_line stack49 [] = some { out := "", stack := stack49, fault := none } :=
  ⟨by decide, C19_empty_line stack49 " \t\n ".toList (by decide),
    C19_empty_line stack49 [] (by decide)⟩

/-- C20 (documented examples): executed by `execute_line` on an empty stack, each of the
four lines returns without fault and leaves an empty stack; `5 dup * print` writes `25`,
`3 4 + 2 * print` writes `14`, `10 20 swap - print` writes `10`, and
`1 2 3 rot print print print` writes `1`, `3`, `2`, each number followed by a newline. -/
theorem C20_documented_examples :
    (∃ r, execute_line emptyStack "5 dup * print".toList = some r ∧ r.out = "25\n" ∧
      r.fault = none ∧ r.stack.size = 0 ∧ r.stack.contents = []) ∧
    (∃ r, execute_line emptyStack "3 4 + 2 * print".toList = some r ∧ r.out = "14\n" ∧
      r.fault = none ∧ r.stack.size = 0 ∧ r.stack.contents = []) ∧
    (∃ r, execute_line emptyStack "10 20 swap - print".toList = some r ∧ r.out = "10\n" ∧
      r.fault = none ∧ r.stack.size = 0 ∧ r.stack.contents = []) ∧
    (∃ r, execute_line emptyStack "1 2 3 rot print print print".toList = some r ∧
      r.out = "1\n3\n2\n" ∧ r.fault = none ∧ r.stack.size = 0 ∧ r.stack.contents = []) :=
  ⟨⟨_, rfl, by decide, rfl, by decide, by decide⟩,
    ⟨_, rfl, by decide, rfl, by decide, by decide⟩,
    ⟨_, rfl, by decide, rfl, by decide, by decide⟩,
    ⟨_, rfl, by decide, rfl, by decide, by decide⟩⟩

/-! ## The tokenizer -/

theorem maximal_runs_eq (l : List Char) :
    maximal_runs l = (l.splitOnP is_delim).filter fun t => !t.isEmpty := rfl

theorem maximal_runs_delim (c : Char) (l : List Char) (hc : is_delim c = true) :
    maximal_runs (c :: l) = maximal_runs l := by
  rw [maximal_runs_eq, maximal_runs_eq, List.splitOnP_cons, if_pos hc]
  rfl

theorem maximal_runs_dropWhile (l : List Char) :
    maximal_runs (l.dropWhile is_delim) = maximal_runs l := by
  induction l with
  | nil => rfl
  | cons c l ih =>
    rw [List.dropWhile_cons]
    by_cases hc : is_delim c = true
    · rw [if_pos hc, ih, maximal_runs_delim c l hc]
    · rw [if_neg hc]

theorem maximal_runs_single (tok : List Char) (hne : tok ≠ [])
    (hnd : ∀ c ∈ tok, is_delim c = false) : maximal_runs tok = [tok] := by
  rw [maximal_runs_eq, List.splitOnP_eq_single is_delim tok (fun c hc => by simp [hnd c hc])]
  cases tok with
  | nil => exact absurd rfl hne
  | cons c t => rfl

theorem maximal_runs_first (tok : List Char) (d : Char) (rest : List Char) (hne : tok ≠ [])
    (hnd : ∀ c ∈ tok, is_delim c = false) (hd : is_delim d = true) :
    maximal_runs (tok ++ d :: rest) = tok :: maximal_runs rest := by
  rw [maximal_runs_eq, List.splitOnP_first is_delim tok (fun c hc => by simp [hnd c hc]) d hd rest]
  cases tok with
  | nil => exact absurd rfl hne
  | cons c t => rfl

theorem dropWhile_head_false {α : Type} (p : α → Bool) (l : List α) (c : α) (r : List α)
    (h : l.dropWhile p = c :: r) : p c = false := by
  induction l with
  | nil => simp at h
  | cons x xs ih =>
    rw [List.dropWhile_cons] at h
    by_cases hx : p x = true
    · rw [if_pos hx] at h; exact ih h
    · rw [if_neg hx] at h
      cases h
      simpa using hx

/-- What one call of `strtok` does, in terms of the maximal runs of the text: `NULL` when
there is none, else the first run, the text left holding the other runs. -/
theorem strtok_spec (p : List Char) :
    (strtok p = none ∧ maximal_runs p = [] ∧
      p.filter (fun c => !is_delim c) = []) ∨
    (∃ tok rest, strtok p = some (tok, rest) ∧ maximal_runs p = tok :: maximal_runs rest ∧
      tok ≠ [] ∧ (∀ c ∈ tok, is_delim c = false) ∧
      p.filter (fun c => !is_delim c) = tok ++ rest.filter (fun c => !is_delim c)) := by
  have hfilter : p.filter (fun c => !is_delim c)
      = (p.dropWhile is_delim).filter (fun c => !is_delim c) := by
    induction p with
    | nil => rfl
    | cons c l ih =>
      rw [List.dropWhile_cons]
      by_cases hc : is_delim c = true
      · rw [if_pos hc, List.filter_cons_of_neg (by simp [hc]), ih]
      · rw [if_neg hc]
  rw [← maximal_runs_dropWhile p, hfilter]
  unfold strtok
  simp only
  cases hp1 : p.dropWhile is_delim with
  | nil => left; exact ⟨if_pos rfl, rfl, rfl⟩
  | cons c r =>
    right
    have hc : is_delim c = false := dropWhile_head_false _ _ _ _ hp1
    have hsplit := List.takeWhile_append_dropWhile (fun c => !is_delim c) (c :: r)
    have htok_ne : List.takeWhile (fun c => !is_delim c) (c :: r) ≠ [] := by
      rw [List.takeWhile_cons]
      simp [hc]
    have htok_nd : ∀ x ∈ List.takeWhile (fun c => !is_delim c) (c :: r), is_delim x = false := by
      intro x hx
      have := List.mem_takeWhile_imp hx
      simpa using this
    have htok_f : (List.takeWhile (fun c => !is_delim c) (c :: r)).filter (fun c => !is_delim c)
        = List.takeWhile (fun c => !is_delim c) (c :: r) :=
      List.filter_eq_self.mpr fun x hx => by simp [htok_nd x hx]
    refine ⟨List.takeWhile (fun c => !is_delim c) (c :: r),
      (List.dropWhile (fun c => !is_delim c) (c :: r)).drop 1,
      if_neg (List.cons_ne_nil c r), ?_, htok_ne, htok_nd, ?_⟩
    · cases hrem : List.dropWhile (fun c => !is_delim c) (c :: r) with
      | nil =>
        rw [hrem, List.append_nil] at hsplit
        rw [hsplit, List.drop_nil]
        have := maximal_runs_single (c :: r) (by simp) (by rw [← hsplit]; exact htok_nd)
        rw [this]
        rfl
      | cons d rest =>
        have hd : is_delim d = true := by
          have := dropWhile_head_false _ _ _ _ hrem
          simpa using this
        rw [hrem] at hsplit
        conv_lhs => rw [← hsplit]
        exact maximal_runs_first _ d rest htok_ne htok_nd hd
    · conv_lhs => rw [← hsplit]
      rw [List.filter_append, htok_f]
      congr 1
      cases hrem : List.dropWhile (fun c => !is_delim c) (c :: r) with
      | nil => rfl
      | cons d rest =>
        have hd : is_delim d = true := by
          have := dropWhile_head_false _ _ _ _ hrem
          simpa using this
        rw [List.filter_cons_of_neg (by simp [hd])]
        rfl

/-- With enough fuel, the tokens returned by `strtok` are the maximal runs of the text;
none is empty, none holds a delimiter, and together they hold the characters of the text
that are not delimiters. -/
theorem strtok_all_eq (fuel : Nat) : ∀ p : List Char, p.length < fuel →
    strtok_all fuel p = maximal_runs p ∧
    (∀ t ∈ strtok_all fuel p, t ≠ [] ∧ ∀ c ∈ t, is_delim c = false) ∧
    (strtok_all fuel p).flatten = p.filter (fun c => !is_delim c) := by
  induction fuel with
  | zero => intro p h; omega
  | succ n ih =>
    intro p hlen
    rw [strtok_all]
    rcases strtok_spec p with ⟨hnone, hmr, hf⟩ | ⟨tok, rest, hsome, hmr, hne, hnd, hf⟩
    · simp only [hnone]
      exact ⟨hmr.symm, fun t ht => absurd ht (List.not_mem_nil t), hf.symm⟩
    · have hlt := strtok_rest_length p tok rest hsome
      obtain ⟨ih1, ih2, ih3⟩ := ih rest (by omega)
      simp only [hsome]
      refine ⟨by rw [ih1, hmr], ?_, by rw [List.flatten_cons, ih3, hf]⟩
      intro t ht
      rcases List.mem_cons.mp ht with rfl | ht
      · exact ⟨hne, hnd⟩
      · exact ih2 t ht

/-- The tokens of a line are the maximal runs of its first 1023 characters. -/
theorem line_tokens_eq (line : List Char) :
    line_tokens line = maximal_runs (line.take 1023) :=
  (strtok_all_eq _ (line.take 1023) (Nat.lt_succ_self _)).1

theorem maximal_runs_blanks (n : Nat) (l : List Char) :
    maximal_runs (List.replicate n ' ' ++ l) = maximal_runs l := by
  induction n with
  | zero => rfl
  | succ n ih => rw [List.replicate_succ, List.cons_append, maximal_runs_delim ' ' _ (by decide), ih]

/-- C18, counterexample: in the line made of 1023 blanks followed by `7` the only maximal
run is `7`, but `execute_line` copies the 1023 blanks only: it finds no token and returns
with the empty stack unchanged, the token `7` having been dropped. -/
theorem C18_tokenizer_counterexample :
    long_line.length = 1024 ∧ maximal_runs long_line = ["7".toList] ∧
    line_tokens long_line = [] ∧
    execute_line emptyStack long_line = some { out := "", stack := emptyStack, fault := none } := by
  have htake : long_line.take 1023 = List.replicate 1023 ' ' :=
    List.take_left' (List.length_replicate 1023 ' ')
  have htok : line_tokens long_line = [] := by
    rw [line_tokens_eq, htake, ← List.append_nil (List.replicate 1023 ' '),
      maximal_runs_blanks]
    rfl
  refine ⟨by rw [long_line, List.length_append, List.length_replicate]; rfl, ?_, htok, ?_⟩
  · unfold long_line
    rw [maximal_runs_blanks]
    rfl
  · rw [execute_line_eq, htok]
    rfl

/-- C18, amended (tokenizer): for every line of at most 1023 characters, the tokens that
`execute_line` feeds to `execute_command`, in this order and until one fails, are exactly
the maximal runs of characters other than blank, tab and newline of the line: every token
is non-empty and holds none of these three characters, and the tokens together hold all
the other characters of the line in their order. Of any line, the first 1023 characters are
tokenized in this way. -/
theorem C18_tokenizer_amended (s : Stack) (line : List Char) (hlen : line.length ≤ 1023) :
    execute_line s line = some (run_tokens (maximal_runs line) s "") ∧
    line_tokens line = maximal_runs line ∧
    (∀ t ∈ line_tokens line, t ≠ [] ∧ ∀ c ∈ t, c ≠ ' ' ∧ c ≠ '\t' ∧ c ≠ '\n') ∧
    (line_tokens line).flatten = line.filter (fun c => !(c = ' ' || c = '\t' || c = '\n')) ∧
    (∀ (s1 : Stack) (line1 : List Char),
      execute_line s1 line1 = some (run_tokens (maximal_runs (line1.take 1023)) s1 "")) := by
  have htake : line.take 1023 = line := List.take_of_length_le hlen
  obtain ⟨h1, h2, h3⟩ := strtok_all_eq ((line.take 1023).length + 1) (line.take 1023)
    (Nat.lt_succ_self _)
  have htok : line_tokens line = maximal_runs line := by rw [line_tokens_eq, htake]
  refine ⟨by rw [execute_line_eq, htok], htok, ?_, ?_, ?_⟩
  · intro t ht
    obtain ⟨hne, hnd⟩ := h2 t ht
    refine ⟨hne, fun c hc => ?_⟩
    have := hnd c hc
    have hiff := is_delim_iff c
    rw [this] at hiff
    simp only [Bool.false_eq_true, false_iff, not_or] at hiff
    exact hiff
  · have : (line_tokens line).flatten = (line.take 1023).filter (fun c => !is_delim c) := h3
    rw [this, htake]
    rfl
  · intro s1 line1
    rw [execute_line_eq, line_tokens_eq]

/-- Witness of C18 (amended): the line `  ab c`, tab, newline, `d `. -/
theorem C18_tokenizer_amended_witness :
    "  ab c\t\nd ".toList.length ≤ 1023 ∧
    maximal_runs "  ab c\t\nd ".toList = ["ab".toList, "c".toList, "d".toList] ∧
    line_tokens "  ab c\t\nd ".toList = maximal_runs "  ab c\t\nd ".toList :=
  ⟨by decide, by decide,
    (C18_tokenizer_amended emptyStack "  ab c\t\nd ".toList (by decide)).2.1⟩

/-! ## Overflow -/

theorem topBound_pure {α : Type} (n : Int) (a : α) : TopBound n n (pure a : StackM α) := by
  intro s hs
  refine ⟨(fun f s1 h => by cases h), fun b s1 h => ?_⟩
  cases h
  exact hs

theorem topBound_bind {α β : Type} (n n1 n2 : Int) (m : StackM α) (k : α → StackM β)
    (hm : TopBound n n1 m) (hk : ∀ a, TopBound n1 n2 (k a)) : TopBound n n2 (m >>= k) := by
  intro s hs
  obtain ⟨hf, hok⟩ := hm s hs
  constructor
  · intro f s1 h
    rw [bind_apply] at h
    cases hms : m s with
    | ok a s2 =>
      rw [hms] at h
      exact ((hk a) s2 (hok a s2 hms)).1 f s1 h
    | fail g s2 =>
      rw [hms] at h
      cases h
      exact hf f s1 hms
  · intro b s1 h
    rw [bind_apply] at h
    cases hms : m s with
    | ok a s2 =>
      rw [hms] at h
      exact ((hk a) s2 (hok a s2 hms)).2 b s1 h
    | fail g s2 =>
      rw [hms] at h
      cases h

theorem topBound_pop (n : Int) : TopBound n (n - 1) stack_pop := by
  intro s hs
  constructor
  · intro f s1 h
    unfold stack_pop at h
    split at h
    · cases h; decide
    · cases h
  · intro a s1 h
    unfold stack_pop at h
    split at h
    · cases h
    · cases h
      show s.top - 1 ≤ n - 1
      omega

/-- A push started with `top ≤ n`, where `n` is below the last index, does not overflow. -/
theorem topBound_push (n : Int) (v : Int) (hn : n < MAX_STACK - 1) :
    TopBound n (n + 1) (stack_push v) := by
  intro s hs
  have hlt : s.top < MAX_STACK - 1 := lt_of_le_of_lt hs hn
  rw [push_ok v s hlt]
  refine ⟨(fun f s1 h => by cases h), fun a s1 h => ?_⟩
  cases h
  show s.top + 1 ≤ n + 1
  omega

theorem topBound_fail {α : Type} (n n1 : Int) (f : Fault) (hf : f.kind ≠ .StackOverflow) :
    TopBound n n1 (fun s => Outcome.fail f s : StackM α) := by
  intro s _
  refine ⟨fun g s1 h => ?_, fun a s1 h => by cases h⟩
  cases h
  exact hf

theorem topBound_arith (op : Int → Int → Int) :
    TopBound 255 254 (do
      let b ← stack_pop
      let a ← stack_pop
      stack_push (op a b)
      return "") :=
  topBound_bind 255 254 254 _ _ (topBound_pop 255) fun _ =>
    topBound_bind 254 253 254 _ _ (topBound_pop 254) fun _ =>
    topBound_bind 253 254 254 _ _ (topBound_push 253 _ (by decide)) fun _ =>
    topBound_pure 254 _

/-- On a stack with `top ≤ 255`, none of the commands that do not make the stack grow
ends with the overflow diagnostic. -/
theorem no_growth_no_overflow (name : List Char) (h : name ∈ no_growth_commands) :
    ∃ n1, TopBound 255 n1 (execute_command name) := by
  simp only [no_growth_commands, List.mem_cons, List.mem_nil_iff, or_false] at h
  rcases h with rfl | rfl | rfl | rfl | rfl | rfl | rfl | rfl | rfl | rfl
  · rw [execute_command_add]; exact ⟨254, topBound_arith _⟩
  · rw [execute_command_sub]; exact ⟨254, topBound_arith _⟩
  · rw [execute_command_mul]; exact ⟨254, topBound_arith _⟩
  · rw [execute_command_div]
    refine ⟨254, topBound_bind 255 254 254 _ _ (topBound_pop 255) fun b =>
      topBound_bind 254 253 254 _ _ (topBound_pop 254) fun a => ?_⟩
    by_cases hb : b = 0
    · simp only [hb, if_true]
      exact topBound_bind 253 253 254 _ _ (topBound_fail 253 253 _ (by decide)) fun _ =>
        topBound_bind 253 254 254 _ _ (topBound_push 253 _ (by decide)) fun _ =>
        topBound_pure 254 _
    · simp only [hb, if_false]
      exact topBound_bind 253 253 254 _ _ (topBound_pure 253 _) fun _ =>
        topBound_bind 253 254 254 _ _ (topBound_push 253 _ (by decide)) fun _ =>
        topBound_pure 254 _
  · rw [execute_command_drop]
    exact ⟨254, topBound_bind 255 254 254 _ _ (topBound_pop 255) fun _ => topBound_pure 254 _⟩
  · rw [execute_command_swap]
    exact ⟨255, topBound_bind 255 254 255 _ _ (topBound_pop 255) fun _ =>
      topBound_bind 254 253 255 _ _ (topBound_pop 254) fun _ =>
      topBound_bind 253 254 255 _ _ (topBound_push 253 _ (by decide)) fun _ =>
      topBound_bind 254 255 255 _ _ (topBound_push 254 _ (by decide)) fun _ =>
      topBound_pure 255 _⟩
  · rw [execute_command_rot]
    exact ⟨255, topBound_bind 255 254 255 _ _ (topBound_pop 255) fun _ =>
      topBound_bind 254 253 255 _ _ (topBound_pop 254) fun _ =>
      topBound_bind 253 252 255 _ _ (topBound_pop 253) fun _ =>
      topBound_bind 252 253 255 _ _ (topBound_push 252 _ (by decide)) fun _ =>
      topBound_bind 253 254 255 _ _ (topBound_push 253 _ (by decide)) fun _ =>
      topBound_bind 254 255 255 _ _ (topBound_push 254 _ (by decide)) fun _ =>
      topBound_pure 255 _⟩
  · rw [execute_command_print]
    exact ⟨254, topBound_bind 255 254 254 _ _ (topBound_pop 255) fun _ => topBound_pure 254 _⟩
  · rw [execute_command_dot_s]
    refine ⟨255, fun s hs => ⟨(fun f s1 h => by cases h), fun a s1 h => ?_⟩⟩
    cases h
    exact hs
  · rw [execute_command_clear]
    refine ⟨255, fun s hs => ⟨(fun f s1 h => by cases h), fun a s1 h => ?_⟩⟩
    cases h
    show (-1 : Int) ≤ 255
    omega

/-- The push of a literal: it overflows exactly on a stack of 256 elements, and then the
stack at the failure is the stack before the command. -/
theorem literal_overflow_iff (token : List Char) (s : Stack) (hlit : IsIntegerLiteral token)
    (hwf : s.WF) :
    ((∃ f s1, execute_command token s = .fail f s1 ∧ f.kind = .StackOverflow) ↔
      s.size = MAX_STACK) ∧
    (∀ f s1, execute_command token s = .fail f s1 → f.kind = .StackOverflow → s1 = s) := by
  rw [execute_command_literal token ((is_number_iff token).mpr hlit)]
  have hhi := hwf.2
  simp only [size_eq, MAX_STACK] at *
  by_cases hfull : s.top < MAX_STACK - 1
  · have hp := push_ok (atoi token) s hfull
    simp only [MAX_STACK] at hfull
    simp only [bind_apply, hp, pure_apply]
    refine ⟨⟨?_, fun h => absurd h (by omega)⟩, fun f s1 h => by cases h⟩
    rintro ⟨f, s1, h, _⟩
    cases h
  · have hp := push_full (atoi token) s (not_lt.mp hfull)
    simp only [MAX_STACK] at hfull
    simp only [bind_apply, hp]
    refine ⟨⟨fun _ => by omega, fun _ => ⟨.overflow, s, rfl, rfl⟩⟩, fun f s1 h _ => ?_⟩
    cases h
    rfl

/-- The command `dup`: it overflows exactly on a stack of 256 elements, and then the stack
at the failure is the stack before the command. -/
theorem dup_overflow_iff (s : Stack) (hwf : s.WF) :
    ((∃ f s1, execute_command "dup".toList s = .fail f s1 ∧ f.kind = .StackOverflow) ↔
      s.size = MAX_STACK) ∧
    (∀ f s1, execute_command "dup".toList s = .fail f s1 → f.kind = .StackOverflow →
      s1 = s) := by
  rw [execute_command_dup]
  have hhi := hwf.2
  simp only [size_eq, MAX_STACK] at *
  by_cases hempty : s.top = -1
  · have hk := peek_empty s hempty
    simp only [bind_apply, hk]
    refine ⟨⟨?_, fun h => absurd h (by omega)⟩, fun f s1 h hkind => ?_⟩
    · rintro ⟨f, s1, h, hkind⟩
      cases h
      exact absurd hkind (by decide)
    · cases h
      exact absurd hkind (by decide)
  · have hk := peek_ok s hempty
    by_cases hfull : s.top < MAX_STACK - 1
    · have hp := push_ok (s.data s.top.toNat) s hfull
      simp only [MAX_STACK] at hfull
      simp only [bind_apply, hk, hp, pure_apply]
      refine ⟨⟨?_, fun h => absurd h (by omega)⟩, fun f s1 h => by cases h⟩
      rintro ⟨f, s1, h, _⟩
      cases h
    · have hp := push_full (s.data s.top.toNat) s (not_lt.mp hfull)
      simp only [MAX_STACK] at hfull
      simp only [bind_apply, hk, hp]
      refine ⟨⟨fun _ => by omega, fun _ => ⟨.overflow, s, rfl, rfl⟩⟩, fun f s1 h _ => ?_⟩
      cases h
      rfl

/-- A token whose execution overflows is a literal, `dup` or `over`. -/
theorem overflow_token (token : List Char) (s s1 : Stack) (f : Fault) (hwf : s.WF)
    (h : execute_command token s = .fail f s1) (hkind : f.kind = .StackOverflow) :
    IsIntegerLiteral token ∨ token = "dup".toList ∨ token = "over".toList := by
  have hhi : s.top ≤ 255 := by
    have := hwf.2
    simp only [MAX_STACK] at this
    omega
  have hno : ∀ name ∈ no_growth_commands, token = name → False := by
    intro name hname e
    subst e
    obtain ⟨n1, hb⟩ := no_growth_no_overflow token hname
    exact (hb s hhi).1 f s1 h hkind
  by_cases hnum : is_number token = true
  · exact Or.inl ((is_number_iff token).mp hnum)
  by_cases hname : token ∈ command_names
  · simp only [command_names, List.mem_cons, List.mem_nil_iff, or_false] at hname
    rcases hname with e | e | e | e | e | e | e | e | e | e | e | e
    · exact absurd e (fun e => hno _ (by decide) e)
    · exact absurd e (fun e => hno _ (by decide) e)
    · exact absurd e (fun e => hno _ (by decide) e)
    · exact absurd e (fun e => hno _ (by decide) e)
    · exact Or.inr (Or.inl e)
    · exact absurd e (fun e => hno _ (by decide) e)
    · exact absurd e (fun e => hno _ (by decide) e)
    · exact Or.inr (Or.inr e)
    · exact absurd e (fun e => hno _ (by decide) e)
    · exact absurd e (fun e => hno _ (by decide) e)
    · exact absurd e (fun e => hno _ (by decide) e)
    · exact absurd e (fun e => hno _ (by decide) e)
  · rw [execute_command_unknown token hnum hname] at h
    cases h
    simp [Fault.kind] at hkind

/-- C21 (overflow only comes from growth): on a valid stack (`0 ≤ size ≤ 256`), none of
`+`, `-`, `*`, `/`, `drop`, `swap`, `rot`, `print`, `.s`, `clear` fails with StackOverflow;
a token that fails with StackOverflow is an integer literal, `dup` or `over`, and each of
these three does fail so on a full stack; for a literal and for `dup` the failure with
StackOverflow occurs exactly when the stack holds 256 elements, and the stack at the
failure is then the stack before the command. -/
theorem C21_overflow_only_growth :
    (∀ (name : List Char) (s s1 : Stack) (f : Fault), name ∈ no_growth_commands → s.WF →
      execute_command name s = .fail f s1 → f.kind ≠ .StackOverflow) ∧
    (∀ (token : List Char) (s s1 : Stack) (f : Fault), s.WF →
      execute_command token s = .fail f s1 → f.kind = .StackOverflow →
      IsIntegerLiteral token ∨ token = "dup".toList ∨ token = "over".toList) ∧
    (∀ (token : List Char) (s : Stack),
      IsIntegerLiteral token ∨ token = "dup".toList → s.WF →
      ((∃ f s1, execute_command token s = .fail f s1 ∧ f.kind = .StackOverflow) ↔
        s.size = MAX_STACK) ∧
      (∀ f s1, execute_command token s = .fail f s1 → f.kind = .StackOverflow → s1 = s)) ∧
    execute_command "7".toList fullStack = .fail .overflow fullStack ∧
    execute_command "dup".toList fullStack = .fail .overflow fullStack ∧
    (∃ s1, execute_command "over".toList fullStack = .fail .overflow s1 ∧
      s1.size = fullStack.size) := by
  refine ⟨?_, ?_, ?_, rfl, rfl, ⟨_, rfl, rfl⟩⟩
  · intro name s s1 f hname hwf h
    obtain ⟨n1, hb⟩ := no_growth_no_overflow name hname
    have hhi := hwf.2
    simp only [MAX_STACK] at hhi
    exact (hb s (by omega)).1 f s1 h
  · intro token s s1 f hwf h hkind
    exact overflow_token token s s1 f hwf h hkind
  · intro token s hcase hwf
    rcases hcase with hlit | rfl
    · exact literal_overflow_iff token s hlit hwf
    · exact dup_overflow_iff s hwf

/-- Witness of C21: `+` on the empty stack fails, with underflow; `dup` on the full stack
fails with overflow and leaves the stack. -/
theorem C21_overflow_only_growth_witness :
    "+".toList ∈ no_growth_commands ∧ emptyStack.WF ∧ fullStack.WF ∧
    execute_command "+".toList emptyStack = .fail .underflow emptyStack ∧
    Fault.underflow.kind ≠ .StackOverflow ∧
    execute_command "dup".toList fullStack = .fail .overflow fullStack ∧
    (IsIntegerLiteral "dup".toList ∨ "dup".toList = "dup".toList ∨
      "dup".toList = "over".toList) ∧
    ((∃ f s1, execute_command "dup".toList fullStack = .fail f s1 ∧
        f.kind = .StackOverflow) ↔ fullStack.size = MAX_STACK) ∧
    fullStack = fullStack :=
  ⟨by decide, by decide, by decide, rfl,
    C21_overflow_only_growth.1 "+".toList emptyStack emptyStack .underflow (by decide)
      (by decide) rfl,
    rfl,
    C21_overflow_only_growth.2.1 "dup".toList fullStack fullStack .overflow (by decide) rfl rfl,
    (C21_overflow_only_growth.2.2.1 "dup".toList fullStack (Or.inr rfl) (by decide)).1,
    (C21_overflow_only_growth.2.2.1 "dup".toList fullStack (Or.inr rfl) (by decide)).2
      .overflow fullStack rfl rfl⟩

end ConcatInterpreter
